import Mathlib

/-!
The implementation details of swl::variant (`variant_detail.hpp`).

A shallow embedding of the compile-time machinery of `swl/variant_detail.hpp`:
the type-pack indexing (`find_type_i`, `type_pack_element`), the union tree
(`variant_union`, `make_tree`, `make_tree_union`), the accessors and in-place
constructors of the union nodes, the conditionally trivial special member
functions, the overload based best-match detector, the selector of the
smallest suitable index type and the helpers `find_first_true`,
`appears_exactly_once` and `destruct`.  The states of the container, whose
code is in the variant header, follow its description.

C++ types are values of `Ty α`; template instantiation is evaluation of a Lean
function, and an ill-formed instantiation is the absence of a result.

Pack sizes, `Remaining`, `elem_size` and indexes are `unsigned` / `std::size_t`
in the source.  They are natural numbers here: every subtraction of the source
is guarded (`Index - A::elem_size` is evaluated only when
`Index >= A::elem_size`, `Remaining - 2` only when two types are picked,
`Idx - 1` only when `Idx != 0`), and sums are bounded by the number of template
arguments of one pack, which is far below `2^32`.
-/

namespace swl

/-! ## Type pack element -/

/-- The template `find_type_i<Sel>::f<Idx, Ts...>`.  `find_type_i<1>` drops the
head of the pack and continues with `find_type_i<(Idx != 1)>` at `Idx - 1`;
`find_type_i<0>` is the head of the pack.  Only the specialisations `0` and `1`
are defined, and both need a non-empty pack. -/
def find_type_i {τ : Type} : Nat → Nat → List τ → Option τ
  | 1, idx, _ :: ts => find_type_i (if idx != 1 then 1 else 0) (idx - 1) ts
  | 0, _, t :: _ => some t
  | _, _, _ => none

/-- The alias `type_pack_element<K, Ts...>`. -/
def type_pack_element {τ : Type} (k : Nat) (ts : List τ) : Option τ :=
  find_type_i (if k != 0 then 1 else 0) k ts

/-! ## Union nodes -/

/-- The C++ types that occur in the union tree: the sentinel `dummy_type`, an
alternative supplied by the user (named by a value of `α`), and the union
template `variant_union<IsTerminal, A, B>`. -/
inductive Ty (α : Type) where
  | dummy_type : Ty α
  | alt (name : α) : Ty α
  | variant_union (isTerminal : Bool) (a b : Ty α) : Ty α
  deriving DecidableEq, Repr

open Ty

/-- The static member `elem_size`.  A non-terminal node adds the sizes of its
two members, a terminal node has size 1 when its second member is `dummy_type`
and 2 otherwise, and any other type has no such member. -/
def elem_size {α : Type} : Ty α → Option Nat
  | variant_union false a b =>
    match elem_size a, elem_size b with
    | some sa, some sb => some (sa + sb)
    | _, _ => none
  | variant_union true _ dummy_type => some 1
  | variant_union true _ _ => some 2
  | _ => none

/-- The two data members of a union node. -/
inductive Member where
  | a : Member
  | b : Member
  deriving DecidableEq, Repr

/-- What a call of `get<Index>()` refers to: the chain of member selections
from the node it is called on, and the type of the member reached. -/
structure Slot (α : Type) where
  path : List Member
  type : Ty α
  deriving DecidableEq, Repr

/-- Extends a slot of a member to a slot of the enclosing node. -/
def Slot.under {α : Type} (m : Member) (s : Slot α) : Slot α :=
  ⟨m :: s.path, s.type⟩

/-- The member function template `get<Index>()`.  On a non-terminal node it
continues in `a` when `Index < A::elem_size` and in `b` with
`Index - A::elem_size` otherwise; on a terminal node it is `a` when
`Index == 0` and `b` otherwise. -/
def get {α : Type} : Ty α → Nat → Option (Slot α)
  | variant_union false a b, index =>
    match elem_size a with
    | some sa =>
      if index < sa then (get a index).map (Slot.under Member.a)
      else (get b (index - sa)).map (Slot.under Member.b)
    | none => none
  | variant_union true a b, index =>
    if index = 0 then some ⟨[Member.a], a⟩ else some ⟨[Member.b], b⟩
  | _, _ => none

/-! ## The tree builder -/

/-- The function `pick_next`. -/
def pick_next (remaining : Nat) : Nat :=
  if remaining ≥ 2 then 2 else remaining

/-- Outcome of instantiating a template alias: the type it names, an
ill-formed program (no matching specialisation or a pack of the wrong size),
or a recursion deeper than the depth the evaluation was given. -/
inductive Instantiation (α : Type) where
  | type (t : Ty α) : Instantiation α
  | ill_formed : Instantiation α
  | depth_exceeded : Instantiation α
  deriving DecidableEq, Repr

/-- The alias `make_tree<Pick, GoOn, FirstPass>::f<Remaining, Ts...>`, with a
bound on the depth of the recursive instantiation as first argument.  The five
specialisations, in the order of the source:
`<2, 1, IsFirstPass>` joins the first two types and appends the node,
`<0, 0, F>` stops with the single type left,
`<0, 1, IsFirstPass>` starts the next pass,
`<1, 1, false>` moves the odd type to the back,
`<1, 1, true>` wraps the odd type of the first pass with `dummy_type`. -/
def make_tree {α : Type} :
    Nat → Nat → Bool → Bool → Nat → List (Ty α) → Instantiation α
  | 0, _, _, _, _, _ => Instantiation.depth_exceeded
  | depth + 1, 2, true, isFirstPass, remaining, a :: b :: ts =>
    make_tree depth (pick_next (remaining - 2)) (ts.length != 0) isFirstPass
      (remaining - 2) (ts ++ [variant_union isFirstPass a b])
  | _ + 1, 0, false, _, _, [a] => Instantiation.type a
  | depth + 1, 0, true, _, _, ts =>
    make_tree depth (pick_next ts.length) (ts.length != 1) false ts.length ts
  | depth + 1, 1, true, false, _, a :: ts =>
    make_tree depth 0 (ts.length != 0) false 0 (ts ++ [a])
  | depth + 1, 1, true, true, _, a :: ts =>
    make_tree depth 0 (ts.length != 0) false 0 (ts ++ [variant_union true a dummy_type])
  | _ + 1, _, _, _, _, _ => Instantiation.ill_formed

/-- The alias `make_tree_union<Ts...>`. -/
def make_tree_union {α : Type} (depth : Nat) (ts : List (Ty α)) : Instantiation α :=
  make_tree depth (pick_next ts.length) true true ts.length ts

/-! ## Reading the tree -/

/-- The alternative slots of a union tree from left to right: member `a`
before member `b` at every node, a terminal node contributes its members, and
the `dummy_type` that fills the back of a terminal node is left out. -/
def slots {α : Type} : Ty α → List (Ty α)
  | variant_union false a b => slots a ++ slots b
  | variant_union true a dummy_type => [a]
  | variant_union true a b => [a, b]
  | _ => []

/-- A union tree: terminal nodes at the leaves, and non-terminal nodes whose two
members are union trees. -/
inductive IsTree {α : Type} : Ty α → Prop where
  | terminal (a b : Ty α) : IsTree (variant_union true a b)
  | node (a b : Ty α) : IsTree a → IsTree b → IsTree (variant_union false a b)

/-- One pass of the builder over a pack: adjacent types are joined into
`variant_union<FirstPass, A, B>`; an odd last type is wrapped with `dummy_type`
in the first pass and kept as it is in a later pass. -/
def pair_up {α : Type} (firstPass : Bool) : List (Ty α) → List (Ty α)
  | a :: b :: ts => variant_union firstPass a b :: pair_up firstPass ts
  | [a] => [if firstPass then variant_union true a dummy_type else a]
  | [] => []

/-- The root the passes of the builder arrive at: the first pass, then as many
later passes as there are types (a pass leaves a single type unchanged). -/
def tree_of {α : Type} (ts : List (Ty α)) : Ty α :=
  ((pair_up false)^[ts.length] (pair_up true ts)).headD dummy_type

/-- The configuration reached at the end of a pass, `make_tree<0, GoOn, F>` on
the pack `ts` with `GoOn` set exactly when more than one type is left, names
the type `t` at every depth from `k` on. -/
def EndsIn {α : Type} (ts : List (Ty α)) (k : Nat) (t : Ty α) : Prop :=
  ∀ depth, k ≤ depth → ∀ (goOn fp : Bool) (r : Nat), (goOn = true ↔ ts.length ≠ 1) →
    make_tree depth 0 goOn fp r ts = Instantiation.type t

/-! ## In-place construction and access -/

/-- An object: a value together with the alternative type it has. -/
structure Obj (α β : Type) where
  type : Ty α
  value : β
  deriving DecidableEq, Repr

/-- The contents of a union after construction: a union holds one active
member, which is again a union or, at the end, an object. -/
inductive Storage (α β : Type) where
  | object (o : Obj α β) : Storage α β
  | member (m : Member) (s : Storage α β) : Storage α β
  deriving DecidableEq, Repr

/-- The member initialiser `a{static_cast<Args&&>(args)...}` of a terminal node
for a single argument: the member is copy- or move-constructed from an object of
its own type.  (Conversions between distinct types are not part of this model;
`dummy_type` is an empty aggregate, so `dummy_type{x}` is ill-formed for every
`x` of another type.) -/
def init_member {α β : Type} [DecidableEq α] (t : Ty α) (o : Obj α β) :
    Option (Storage α β) :=
  if o.type = t then some (Storage.object o) else none

/-- The constructors `variant_union(in_place_index_t<Index>, Args&&...)`.
On a non-terminal node the overload with `requires (Index < A::elem_size)`
initialises `a` with the same index and the one with
`requires (Index >= A::elem_size)` initialises `b` with
`Index - A::elem_size`; a terminal node has the two overloads for
`in_place_index_t<0>` (member `a`) and `in_place_index_t<1>` (member `b`). -/
def construct {α β : Type} [DecidableEq α] :
    Ty α → Nat → Obj α β → Option (Storage α β)
  | variant_union false a b, index, o =>
    match elem_size a with
    | some sa =>
      if index < sa then (construct a index o).map (Storage.member Member.a)
      else (construct b (index - sa) o).map (Storage.member Member.b)
    | none => none
  | variant_union true a b, index, o =>
    if index = 0 then (init_member a o).map (Storage.member Member.a)
    else if index = 1 then (init_member b o).map (Storage.member Member.b)
    else none
  | _, _, _ => none

/-- Reads the object a chain of member selections refers to.  Selecting a
member other than the active one has no defined result. -/
def read {α β : Type} : Storage α β → List Member → Option (Obj α β)
  | Storage.object o, [] => some o
  | Storage.member m s, m' :: path => if m = m' then read s path else none
  | _, _ => none

/-! ## Overload match detector -/

/-- What the language decides for the synthetic overload set.
`admits T A` says that the requirement `requires { arr1<A>{std::declval<T>()}; }`
of the call operator of `overload_frag<N, A>` holds for an argument of type `T`:
the one-element array of `A` can be list-initialised from a `T` without
narrowing.
`converts T A` says that a `T` converts implicitly to `A`, so that the by-value
first parameter `A` of the call operator can be initialised from the argument.
(An aggregate `struct Agg { int x; }` is admitted from an `int` by brace
elision, but an `int` does not convert to it.)
`better T A B` says that passing a `T` to a parameter of type `A` is a better
implicit conversion sequence than passing it to a parameter of type `B`; the
language orders conversion sequences strictly, which is `better_asymm`. -/
structure Conversions (τ : Type) where
  admits : τ → τ → Bool
  converts : τ → τ → Bool
  better : τ → τ → τ → Bool
  better_asymm : ∀ T A B, better T A B = true → better T B A = false

/-- The class template `overload_frag<N, A>`: the position it was made for and
its member `type`. -/
structure overload_frag (τ : Type) where
  N : Nat
  type : τ
  deriving DecidableEq, Repr

/-- The class `make_overload<std::index_sequence<Idx...>, Args...>`: one base
`overload_frag<Idx, Args>` per alternative, all call operators brought into one
overload set. -/
def make_overload {τ : Type} (Args : List τ) : List (overload_frag τ) :=
  List.zipWith overload_frag.mk (List.range Args.length) Args

/-- The call operators `operator()(A, T&&)` of the overload set that are viable
for the call with two arguments of type `T`: the requirement holds and the first
argument converts implicitly to the by-value parameter `A`. -/
def viable {τ : Type} (conv : Conversions τ) (T : τ) (fs : List (overload_frag τ)) :
    List (overload_frag τ) :=
  fs.filter fun f => conv.admits T f.type && conv.converts T f.type

/-- Overload resolution of the call
`make_overload<...>{}(std::declval<T>(), std::declval<T>())`: the second
parameter `T&&` is the same for every candidate, so a viable candidate is the
best one when its first parameter is a better conversion than that of every
other viable candidate; the call is well-formed when there is exactly one such
candidate. -/
def resolve_call {τ : Type} (conv : Conversions τ) (T : τ) (fs : List (overload_frag τ)) :
    Option (overload_frag τ) :=
  match (viable conv T fs).filter fun f =>
      (viable conv T fs).all fun g => g.N == f.N || conv.better T f.type g.type with
  | [f] => some f
  | _ => none

/-- The alias `best_overload_match<T, Ts...>`: the member `type` of the
`overload_frag` the call returns. -/
def best_overload_match {τ : Type} (conv : Conversions τ) (T : τ) (Ts : List τ) :
    Option τ :=
  (resolve_call conv T (make_overload Ts)).map overload_frag.type

/-- The concept `has_non_ambiguous_match<T, Ts...>`. -/
def has_non_ambiguous_match {τ : Type} (conv : Conversions τ) (T : τ) (Ts : List τ) :
    Bool :=
  (best_overload_match conv T Ts).isSome

/-- The types of the test `test_constexpr_copy_ctor`, whose variant is
`swl::variant<long, void*, const int>`, the type `int` of the argument `101`,
and an aggregate `struct Agg { int x; }`. -/
inductive TestTy where
  | int : TestTy
  | long : TestTy
  | void_ptr : TestTy
  | const_int : TestTy
  | agg : TestTy
  deriving DecidableEq, Repr

/-- Two types are the same up to `const`. -/
def TestTy.same (T A : TestTy) : Bool :=
  match T, A with
  | TestTy.int, TestTy.int => true
  | TestTy.int, TestTy.const_int => true
  | TestTy.const_int, TestTy.int => true
  | TestTy.const_int, TestTy.const_int => true
  | TestTy.long, TestTy.long => true
  | TestTy.void_ptr, TestTy.void_ptr => true
  | TestTy.agg, TestTy.agg => true
  | _, _ => false

/-- A `T` converts implicitly to an `A`: the same type up to `const`, or an
integral conversion between `int` and `long` in either direction. -/
def TestTy.converts (T A : TestTy) : Bool :=
  match T, A with
  | TestTy.int, TestTy.long => true
  | TestTy.const_int, TestTy.long => true
  | TestTy.long, TestTy.int => true
  | TestTy.long, TestTy.const_int => true
  | T, A => T.same A

/-- The conversions between the types of the test.  A one-element array of `A`
can be list-initialised from a `T` when they are the same type up to `const`,
from an `int` when `A` is `long` (every `int` value fits) and, by brace elision,
from an `int` when `A` is the aggregate; `long` to `int` narrows and `void*`
converts only with itself.  A parameter of the same type up to `const` is an
exact match and so a better conversion than an integral conversion; all other
pairs are not ordered. -/
def test_conversions : Conversions TestTy where
  admits := fun T A =>
    match T, A with
    | TestTy.int, TestTy.long => true
    | TestTy.const_int, TestTy.long => true
    | TestTy.int, TestTy.agg => true
    | TestTy.const_int, TestTy.agg => true
    | T, A => T.same A
  converts := TestTy.converts
  better := fun T A B => T.same A && !T.same B
  better_asymm := by
    intro T A B h
    cases T <;> cases A <;> cases B <;> first | rfl | exact absurd h (by decide)

/-! ## Conditionally trivial special member functions -/

/-- The five special member functions `INJECT_UNION_SFM_FRAG` declares, named
by the trait that `TRAIT` tests for each. -/
inductive SpecialMember where
  | copy_constructible : SpecialMember
  | move_constructible : SpecialMember
  | copy_assignable : SpecialMember
  | move_assignable : SpecialMember
  | destructible : SpecialMember
  deriving DecidableEq, Repr

/-- How a type supports one special operation: not at all, by a non-trivial
function, or trivially. -/
inductive Support where
  | absent : Support
  | non_trivial : Support
  | trivial : Support
  deriving DecidableEq, Repr

/-- The trait `std::is_<trait>_v`. -/
def Support.is : Support → Bool
  | Support.absent => false
  | _ => true

/-- The trait `std::is_trivially_<trait>_v`. -/
def Support.is_trivially : Support → Bool
  | Support.trivial => true
  | _ => false

/-- The helper `TRAIT(trait)`: the trait holds for both members `A` and `B`. -/
def TRAIT (trait : Support → Bool) (A B : Support) : Bool :=
  trait A && trait B

/-- The two declarations of `SFM(signature, trait)` in a union with members of
type `A` and `B`, resolved between themselves.  The constrained one, with the
empty body, takes part when `TRAIT(trait) and not TRAIT(trivially_trait)` and is
then the function used.  The defaulted one is trivial when the operation is
trivial for both members and deleted otherwise. -/
def SFM (A B : Support) : Support :=
  if TRAIT Support.is A B && !TRAIT Support.is_trivially A B then Support.non_trivial
  else if TRAIT Support.is_trivially A B then Support.trivial
  else Support.absent

/-- The copy operation that serves for a move when the class has no usable move
operation of its own. -/
def copy_counterpart : SpecialMember → Option SpecialMember
  | SpecialMember.move_constructible => some SpecialMember.copy_constructible
  | SpecialMember.move_assignable => some SpecialMember.copy_assignable
  | _ => none

/-- The five lines of `INJECT_UNION_SFM_FRAG(X)` in a union `X` whose members
support the operations as `A` and `B` say: the support of `op` by `X`.  Each
operation is resolved by its own `SFM` line, except that a defaulted move
constructor or move assignment operator that is deleted is left out of overload
resolution: when the constrained move is not offered either, moving an `X`
selects among the two copy declarations. -/
def INJECT_UNION_SFM_FRAG (A B : SpecialMember → Support) (op : SpecialMember) : Support :=
  match SFM (A op) (B op), copy_counterpart op with
  | Support.absent, some copy => SFM (A copy) (B copy)
  | own, _ => own

/-- The support of a special operation by a type: given by `traits` for an
alternative, trivial for the empty struct `dummy_type`, and produced by
`INJECT_UNION_SFM_FRAG(variant_union)` from the two members of a union node. -/
def sfm {α : Type} (traits : α → SpecialMember → Support) (op : SpecialMember) :
    Ty α → Support
  | dummy_type => Support.trivial
  | alt name => traits name op
  | variant_union _ a b =>
    INJECT_UNION_SFM_FRAG (fun o => sfm traits o a) (fun o => sfm traits o b) op

/-- The union `variant_top_union<A>` with the members `A impl` and
`dummy_type dummy`: `INJECT_UNION_SFM_FRAG(variant_top_union)` with
`B = dummy_type`. -/
def variant_top_union_sfm {α : Type} (traits : α → SpecialMember → Support)
    (op : SpecialMember) (impl : Ty α) : Support :=
  INJECT_UNION_SFM_FRAG (fun o => sfm traits o impl) (fun o => sfm traits o dummy_type) op

/-- The classes of the test `copy.pass.cpp` used as alternatives next to
`int`. -/
inductive TestClass where
  | int : TestClass
  | TCopy : TestClass
  | NTCopy : TestClass
  deriving DecidableEq, Repr

/-- The special members of the classes of the test.  `int` has every operation
trivially.  `TCopy` has a defaulted (trivial) copy constructor and a deleted
move constructor; `NTCopy` has a user-provided copy constructor and a deleted
move constructor.  Declaring the move constructor makes the implicit copy
assignment operator of both deleted, and there is no move assignment operator;
the destructors are trivial. -/
def test_traits : TestClass → SpecialMember → Support
  | TestClass.int, _ => Support.trivial
  | TestClass.TCopy, SpecialMember.copy_constructible => Support.trivial
  | TestClass.NTCopy, SpecialMember.copy_constructible => Support.non_trivial
  | _, SpecialMember.destructible => Support.trivial
  | _, _ => Support.absent

/-! ## Smallest suitable integer type -/

/-- The index computed by the fold expression
`(static_cast<unsigned char>(Num > std::numeric_limits<Ts>::max()) + ...)`:
the number of candidates whose maximum is below `Num`. -/
def suitable_index {τ : Type} (max : τ → Nat) (Num : Nat) (Ts : List τ) : Nat :=
  (Ts.map fun t => if Num > max t then 1 else 0).sum

/-- The alias `smallest_suitable_integer_type<Num, Ts...>`; `max` gives
`std::numeric_limits<T>::max()`.  A fold over `+` has no value for an empty
pack. -/
def smallest_suitable_integer_type {τ : Type} (max : τ → Nat) (Num : Nat) :
    List τ → Option τ
  | [] => none
  | t :: ts => type_pack_element (suitable_index max Num (t :: ts)) (t :: ts)

/-- The candidate index types. -/
inductive IndexType where
  | unsigned_char : IndexType
  | unsigned_short : IndexType
  | unsigned_int : IndexType
  deriving DecidableEq, Repr

/-- Modelled from the spec: the maxima of the candidate widths the selector is
used with, 8, 16 and 32 bits. -/
def IndexType.max : IndexType → Nat
  | IndexType.unsigned_char => 255
  | IndexType.unsigned_short => 65535
  | IndexType.unsigned_int => 4294967295

/-- Modelled from the spec: the ascending list of candidates the selector is
used with (the use is in the variant header, which is not among the sources). -/
def index_candidates : List IndexType :=
  [IndexType.unsigned_char, IndexType.unsigned_short, IndexType.unsigned_int]

/-! ## Instantiations made by the builder -/

/-- One instantiation `make_tree<Pick, GoOn, FirstPass>::f<Remaining, Ts...>`:
the three arguments that select the specialisation and the number of types
passed to `f`. -/
structure Step where
  Pick : Nat
  GoOn : Bool
  FirstPass : Bool
  pack : Nat
  deriving DecidableEq, Repr

/-- The instantiation matches one of the five specialisations of `make_tree`
and passes as many types as the alias `f` of that specialisation takes:
`<2, 1, _>` at least two, `<0, 0, _>` exactly one, `<0, 1, _>` any number,
`<1, 1, _>` at least one.  Nothing else is defined, in particular not
`<2, 0, _>` and `<1, 0, _>`. -/
def Step.is_defined (s : Step) : Bool :=
  match s.Pick, s.GoOn with
  | 2, true => decide (2 ≤ s.pack)
  | 0, false => decide (s.pack = 1)
  | 0, true => true
  | 1, true => decide (1 ≤ s.pack)
  | _, _ => false

/-- The instantiations of `make_tree` made one after the other, in the order
they are made, for the same arguments and within the same depth as `make_tree`.
An instantiation that matches no specialisation is recorded and ends the
list. -/
def make_tree_trace {α : Type} :
    Nat → Nat → Bool → Bool → Nat → List (Ty α) → List Step
  | 0, _, _, _, _, _ => []
  | depth + 1, 2, true, isFirstPass, remaining, a :: b :: ts =>
    ⟨2, true, isFirstPass, ts.length + 2⟩ ::
      make_tree_trace depth (pick_next (remaining - 2)) (ts.length != 0) isFirstPass
        (remaining - 2) (ts ++ [variant_union isFirstPass a b])
  | _ + 1, 0, false, isFirstPass, _, [_] => [⟨0, false, isFirstPass, 1⟩]
  | depth + 1, 0, true, isFirstPass, _, ts =>
    ⟨0, true, isFirstPass, ts.length⟩ ::
      make_tree_trace depth (pick_next ts.length) (ts.length != 1) false ts.length ts
  | depth + 1, 1, true, false, _, a :: ts =>
    ⟨1, true, false, ts.length + 1⟩ ::
      make_tree_trace depth 0 (ts.length != 0) false 0 (ts ++ [a])
  | depth + 1, 1, true, true, _, a :: ts =>
    ⟨1, true, true, ts.length + 1⟩ ::
      make_tree_trace depth 0 (ts.length != 0) false 0
        (ts ++ [variant_union true a dummy_type])
  | _ + 1, pick, goOn, isFirstPass, _, ts => [⟨pick, goOn, isFirstPass, ts.length⟩]

/-- The instantiations of `make_tree` started by `make_tree_union<Ts...>`. -/
def make_tree_union_trace {α : Type} (depth : Nat) (ts : List (Ty α)) : List Step :=
  make_tree_trace depth (pick_next ts.length) true true ts.length ts

/-- The number of union nodes on the longest way from a node down to a terminal
node, both included. -/
def height {α : Type} : Ty α → Nat
  | variant_union false a b => max (height a) (height b) + 1
  | variant_union true _ _ => 1
  | _ => 0

/-- The terminal nodes of a union tree from left to right. -/
def terminals {α : Type} : Ty α → List (Ty α)
  | variant_union false a b => terminals a ++ terminals b
  | variant_union true a b => [variant_union true a b]
  | _ => []

/-- The union nodes of a union tree: the node itself and the union nodes of its
members. -/
def union_nodes {α : Type} : Ty α → List (Ty α)
  | variant_union false a b => variant_union false a b :: (union_nodes a ++ union_nodes b)
  | variant_union true a b => [variant_union true a b]
  | _ => []

/-! ## Small helpers of the header -/

/-- The function template `find_first_true`, as the loop
`for (int k = 0; k < N; ++k) if (arr[k]) return k;` followed by `return -1;`.
The first argument is the number of iterations left, `N - k`. -/
def find_first_true_loop (arr : List Bool) : Nat → Nat → Int
  | 0, _ => -1
  | left + 1, k => if arr.getD k false then (k : Int) else find_first_true_loop arr left (k + 1)

/-- The call `find_first_true(arr)` for an array of `N` elements. -/
def find_first_true (arr : List Bool) : Int :=
  find_first_true_loop arr arr.length 0

/-- The variable template `appears_exactly_once<T, Ts...>`: the fold
`(static_cast<unsigned short>(std::is_same_v<T, Ts>) + ...)` compared with 1.
A fold over `+` has no value for an empty pack. -/
def appears_exactly_once {τ : Type} [DecidableEq τ] (T : τ) : List τ → Option Bool
  | [] => none
  | U :: Ts => some (((U :: Ts).map fun V => if T = V then 1 else 0).sum == 1)

/-- The function template `destruct<E>(obj)`: unless `E` is trivially
destructible, the destructor of `E` is called on `obj`.  The calls of
destructors made so far are passed along; a call is recorded with the type and
the object. -/
def destruct {α β : Type} (traits : α → SpecialMember → Support) (E : Ty α) (obj : β)
    (calls : List (Ty α × β)) : List (Ty α × β) :=
  if !(sfm traits SpecialMember.destructible E).is_trivially then calls ++ [(E, obj)]
  else calls

/-! ## The states of the container -/

/-- Modelled from the spec: the states of the container (section 4.6),
`Valueless` and `Active(i)` for a position `i`, with the value the active
alternative holds.  The container itself is in the variant header, which is not
among the sources. -/
inductive VariantState (β : Type) where
  | Valueless : VariantState β
  | Active (i : Nat) (v : β) : VariantState β
  deriving DecidableEq, Repr

/-- Modelled from the spec: what the alternatives do when the container
constructs or assigns them.  `construct_throws j w` is the failure thrown when
alternative `j` is copy- or move-constructed from the value `w`, if it throws;
a construction that completes makes an object with the value `w`.
`assign_in_place i v w` is the assignment operator of alternative `i`: the value
the target is left with, and the failure thrown, if any. -/
structure Alternatives (β ε : Type) where
  construct_throws : Nat → β → Option ε
  assign_in_place : Nat → β → β → β × Option ε

/-- Modelled from the spec: `construct(position, args...)` of the storage core
(section 4.4), the member `emplace_no_dtor<Index>` of the container: the
alternative at the position is constructed in place, and nothing is destroyed
before (the caller guarantees that no alternative is live).  A failure of the
constructor propagates. -/
def emplace_no_dtor {β ε : Type} (alts : Alternatives β ε) (index : Nat) (elem : β)
    (_a : VariantState β) : Except ε (VariantState β) :=
  match alts.construct_throws index elem with
  | some e => Except.error e
  | none => Except.ok (VariantState.Active index elem)

/-- The function object `emplace_no_dtor_from_elem<A>` holding `A& a`: its call
operator, for an element and its index, is
`a.template emplace_no_dtor<index_>(static_cast<T&&>(elem))`. -/
def emplace_no_dtor_from_elem {β ε : Type} (alts : Alternatives β ε) (a : VariantState β)
    (elem : β) (index_ : Nat) : Except ε (VariantState β) :=
  emplace_no_dtor alts index_ elem a

/-- Modelled from the spec: copy construction (section 4.6).  From `Active(i)`
alternative `i` is copy-constructed into the new container, which lands in
`Active(i)`; a failure of the copy constructor propagates and no container
comes to exist; from `Valueless` the new container is `Valueless`.  The result
is the source after the construction and the new container. -/
def copy_construct {β ε : Type} (alts : Alternatives β ε) (source : VariantState β) :
    Except ε (VariantState β × VariantState β) :=
  match source with
  | VariantState.Valueless => Except.ok (source, VariantState.Valueless)
  | VariantState.Active i v =>
    match emplace_no_dtor_from_elem alts VariantState.Valueless v i with
    | Except.ok copy => Except.ok (source, copy)
    | Except.error e => Except.error e

/-- Modelled from the spec: destroying the active alternative (sections 4.4 and
4.6).  From `Active(i)` the alternative `i` is destroyed, which is recorded with
its position and value, and no alternative is live afterwards; from `Valueless`
nothing happens. -/
def destroy_active {β : Type} (s : VariantState β) (destroyed : List (Nat × β)) :
    VariantState β × List (Nat × β) :=
  match s with
  | VariantState.Valueless => (VariantState.Valueless, destroyed)
  | VariantState.Active i v => (VariantState.Valueless, destroyed ++ [(i, v)])

/-- What an assignment leaves behind: the state of `self`, the failure that
propagates to the caller, if any, and the alternatives destroyed on the way. -/
structure Assigned (β ε : Type) where
  self : VariantState β
  failure : Option ε
  destroyed : List (Nat × β)

/-- Modelled from the spec: the rule "destroy, then construct" of assignment
(section 4.6): the alternative of `self`, if any, is destroyed, then alternative
`j` is constructed from the value of `other`; if the construction throws, the
failure propagates and `self` stays without a live alternative. -/
def destroy_then_construct {β ε : Type} (alts : Alternatives β ε) (self : VariantState β)
    (j : Nat) (w : β) : Assigned β ε :=
  match emplace_no_dtor alts j w (destroy_active self []).1 with
  | Except.ok s => ⟨s, none, (destroy_active self []).2⟩
  | Except.error e => ⟨(destroy_active self []).1, some e, (destroy_active self []).2⟩

/-- Modelled from the spec: assignment `self := other` (section 4.6).  When both
hold the same alternative it is assigned in place, and a failure leaves `self` in
`Active(i)` with the value the alternative leaves behind.  When `other` holds
another alternative, or `self` is valueless, the rule "destroy, then construct"
applies.  From a valueless `other` the alternative of `self` is destroyed and
nothing is constructed. -/
def assign {β ε : Type} (alts : Alternatives β ε) (self other : VariantState β) :
    Assigned β ε :=
  match self, other with
  | _, VariantState.Valueless => ⟨(destroy_active self []).1, none, (destroy_active self []).2⟩
  | VariantState.Valueless, VariantState.Active j w => destroy_then_construct alts self j w
  | VariantState.Active i v, VariantState.Active j w =>
    if i = j then
      ⟨VariantState.Active i (alts.assign_in_place i v w).1, (alts.assign_in_place i v w).2, []⟩
    else destroy_then_construct alts self j w

/-- The alternatives of the test `makeEmpty`, `int` at position 0 and
`MakeEmptyT` at position 1, under move assignment: move-constructing a
`MakeEmptyT` throws `42`, and so does its assignment; `int` never throws. -/
def make_empty_alternatives : Alternatives Int Int where
  construct_throws := fun j _ => if j = 1 then some 42 else none
  assign_in_place := fun i v w => if i = 1 then (v, some 42) else (w, none)

/-! ## Template arguments of `get` -/

/-- The conversion of a template argument to `union_index_t`, which is
`unsigned`, 32 bits wide: a value that does not fit would be narrowed, which is
ill-formed in a template argument. -/
def union_index_t (K : Nat) : Option Nat :=
  if K < 2 ^ 32 then some K else none

/-- The call `root.template get<K>()` written with the constant `K`: `K` becomes
the `union_index_t Index` of `get`. -/
def get_call {α : Type} (root : Ty α) (K : Nat) : Option (Slot α) :=
  (union_index_t K).bind (get root)

/-! # Properties -/

/-! ## The builder computes `tree_of` -/

theorem pick_next_zero : pick_next 0 = 0 := rfl

theorem pick_next_one : pick_next 1 = 1 := rfl

theorem pick_next_add_two (n : Nat) : pick_next (n + 2) = 2 := by
  simp [pick_next]

theorem length_pair_up {α : Type} (fp : Bool) :
    ∀ ts : List (Ty α), (pair_up fp ts).length = (ts.length + 1) / 2
  | [] => by simp [pair_up]
  | [_] => by simp [pair_up]
  | _ :: _ :: ts => by
    simp only [pair_up, List.length_cons, length_pair_up fp ts]
    omega

theorem make_tree_pass {α : Type} (fp : Bool) (t : Ty α) :
    ∀ (xs acc : List (Ty α)) (k : Nat), xs ≠ [] → EndsIn (acc ++ pair_up fp xs) k t →
      ∀ depth, k + (xs.length + 1) / 2 ≤ depth →
        make_tree depth (pick_next xs.length) true fp xs.length (xs ++ acc)
          = Instantiation.type t
  | [], _, _, h, _, _, _ => absurd rfl h
  | [a], acc, k, _, hend, depth, hd => by
    obtain ⟨d, rfl⟩ : ∃ d, depth = d + 1 := ⟨depth - 1, by simp at hd; omega⟩
    have hk : k ≤ d := by simp at hd; omega
    cases fp
    · simp only [List.length_singleton, pick_next_one, List.singleton_append, make_tree]
      exact hend d hk _ _ _ (by simp [pair_up])
    · simp only [List.length_singleton, pick_next_one, List.singleton_append, make_tree]
      exact hend d hk _ _ _ (by simp [pair_up])
  | a :: b :: xs, acc, k, _, hend, depth, hd => by
    obtain ⟨d, rfl⟩ : ∃ d, depth = d + 1 := ⟨depth - 1, by simp at hd; omega⟩
    have hk : k + (xs.length + 1) / 2 ≤ d := by simp at hd; omega
    simp only [List.length_cons, pick_next_add_two, List.cons_append, make_tree,
      Nat.add_sub_cancel]
    by_cases hxs : xs = []
    · subst hxs
      simp only [List.nil_append, List.length_nil, pick_next_zero]
      exact hend d (by simpa using hk) _ _ _ (by simp [pair_up])
    · have hne : ((xs ++ acc).length != 0) = true := by
        cases xs with
        | nil => exact absurd rfl hxs
        | cons x xs => simp
      rw [hne, List.append_assoc]
      refine make_tree_pass fp t xs (acc ++ [variant_union fp a b]) k hxs ?_ d hk
      simpa [pair_up] using hend

theorem iterate_pair_up_singleton {α : Type} (a : Ty α) (n : Nat) :
    (pair_up false)^[n] [a] = [a] := by
  induction n with
  | zero => rfl
  | succ n ih => rw [Function.iterate_succ_apply]; simpa [pair_up] using ih

theorem make_tree_passes {α : Type} :
    ∀ (m : Nat) (ts : List (Ty α)) (n : Nat), ts.length = m → 1 ≤ m → m ≤ n →
      EndsIn ts (3 * m) (((pair_up false)^[n] ts).headD dummy_type) := by
  intro m
  induction m using Nat.strong_induction_on with
  | _ m ih =>
    intro ts n hlen hm hn depth hd goOn fp r hgo
    obtain ⟨d, rfl⟩ : ∃ d, depth = d + 1 := ⟨depth - 1, by omega⟩
    by_cases h1 : m = 1
    · subst h1
      obtain ⟨a, rfl⟩ : ∃ a, ts = [a] := List.length_eq_one.mp hlen
      have hg : goOn = false := by
        cases goOn
        · rfl
        · exact absurd rfl (hgo.mp rfl)
      subst hg
      simp [make_tree, iterate_pair_up_singleton]
    · have hg : goOn = true := hgo.mpr (by omega)
      subst hg
      obtain ⟨n', rfl⟩ : ∃ n', n = n' + 1 := ⟨n - 1, by omega⟩
      have hstep : make_tree (d + 1) 0 true fp r ts
          = make_tree d (pick_next ts.length) (ts.length != 1) false ts.length ts := by
        cases ts with
        | nil => simp at hlen; omega
        | cons x xs =>
          cases xs with
          | nil => simp at hlen; omega
          | cons y ys => simp [make_tree]
      have hb : (ts.length != 1) = true := by simp; omega
      rw [hstep, hb, Function.iterate_succ_apply]
      have hts : ts ≠ [] := by
        intro h; subst h; simp at hlen; omega
      have hrec := ih ((m + 1) / 2) (by omega) (pair_up false ts) n'
        (by rw [length_pair_up, hlen]) (by omega) (by omega)
      have := make_tree_pass false _ ts [] (3 * ((m + 1) / 2)) hts
        (by simpa using hrec) d (by rw [hlen]; omega)
      simpa using this

/-- With a non-empty pack and a depth of at least `2 * N + 2` the builder names
the root `tree_of`. -/
theorem make_tree_union_eq {α : Type} (ts : List (Ty α)) (hts : ts ≠ [])
    (depth : Nat) (hd : 2 * ts.length + 2 ≤ depth) :
    make_tree_union depth ts = Instantiation.type (tree_of ts) := by
  have hlen : 1 ≤ ts.length := by
    cases ts with
    | nil => exact absurd rfl hts
    | cons x xs => simp
  have hrec := make_tree_passes ((ts.length + 1) / 2) (pair_up true ts) ts.length
    (length_pair_up true ts) (by omega) (by omega)
  have := make_tree_pass true _ ts [] (3 * ((ts.length + 1) / 2)) hts
    (by simpa using hrec) depth (by omega)
  simpa [make_tree_union, tree_of] using this

/-! ## Shape of the tree -/

theorem pair_up_ne_nil {α : Type} (fp : Bool) :
    ∀ ts : List (Ty α), ts ≠ [] → pair_up fp ts ≠ []
  | [], h => absurd rfl h
  | [_], _ => by simp [pair_up]
  | _ :: _ :: _, _ => by simp [pair_up]

theorem isTree_pair_up_true {α : Type} :
    ∀ ts : List (Ty α), ∀ t ∈ pair_up true ts, IsTree t
  | [] => by simp [pair_up]
  | [a] => by
    intro t ht
    simp only [pair_up, if_true, List.mem_singleton] at ht
    subst ht
    exact IsTree.terminal _ _
  | a :: b :: ts => by
    intro t ht
    simp only [pair_up, List.mem_cons] at ht
    rcases ht with rfl | ht
    · exact IsTree.terminal _ _
    · exact isTree_pair_up_true ts t ht

theorem isTree_pair_up_false {α : Type} :
    ∀ ts : List (Ty α), (∀ t ∈ ts, IsTree t) → ∀ t ∈ pair_up false ts, IsTree t
  | [], _ => by simp [pair_up]
  | [a], h => by
    intro t ht
    simp only [pair_up, List.mem_singleton] at ht
    subst ht
    exact h _ (by simp)
  | a :: b :: ts, h => by
    intro t ht
    simp only [pair_up, List.mem_cons] at ht
    rcases ht with rfl | ht
    · exact IsTree.node _ _ (h _ (by simp)) (h _ (by simp))
    · exact isTree_pair_up_false ts (fun u hu => h u (by simp [hu])) t ht

theorem slots_pair_up_false {α : Type} :
    ∀ ts : List (Ty α), (pair_up false ts).flatMap slots = ts.flatMap slots
  | [] => rfl
  | [a] => by simp [pair_up]
  | a :: b :: ts => by
    simp [pair_up, slots, slots_pair_up_false ts]

theorem slots_terminal_of_ne {α : Type} (a b : Ty α) (hb : b ≠ dummy_type) :
    slots (variant_union true a b) = [a, b] := by
  cases b with
  | dummy_type => exact absurd rfl hb
  | alt n => rfl
  | variant_union t x y => rfl

theorem slots_pair_up_true {α : Type} :
    ∀ ts : List (Ty α), dummy_type ∉ ts → (pair_up true ts).flatMap slots = ts
  | [], _ => rfl
  | [a], _ => by simp [pair_up, slots]
  | a :: b :: ts, h => by
    have hb : b ≠ dummy_type := fun hb => h (by simp [hb])
    have hts : dummy_type ∉ ts := fun hm => h (by simp [hm])
    simp [pair_up, slots_terminal_of_ne a b hb, slots_pair_up_true ts hts]

theorem iterate_pair_up_false {α : Type} (n : Nat) :
    ∀ ts : List (Ty α),
      ((pair_up false)^[n] ts).flatMap slots = ts.flatMap slots ∧
      ((∀ t ∈ ts, IsTree t) → ∀ t ∈ (pair_up false)^[n] ts, IsTree t) ∧
      (ts ≠ [] → ts.length ≤ n + 1 → ((pair_up false)^[n] ts).length = 1) := by
  induction n with
  | zero =>
    intro ts
    refine ⟨rfl, fun h => h, fun hne hlen => ?_⟩
    cases ts with
    | nil => exact absurd rfl hne
    | cons x xs => simp at hlen ⊢; exact hlen
  | succ n ih =>
    intro ts
    obtain ⟨h1, h2, h3⟩ := ih (pair_up false ts)
    simp only [Function.iterate_succ_apply]
    refine ⟨by rw [h1, slots_pair_up_false], fun h => h2 (isTree_pair_up_false ts h),
      fun hne hlen => h3 (pair_up_ne_nil false ts hne) ?_⟩
    rw [length_pair_up]
    omega

/-- The passes end with the single type `tree_of`. -/
theorem passes_eq_tree_of {α : Type} (ts : List (Ty α)) (hts : ts ≠ []) :
    (pair_up false)^[ts.length] (pair_up true ts) = [tree_of ts] := by
  have hlen := (iterate_pair_up_false ts.length (pair_up true ts)).2.2
    (pair_up_ne_nil true ts hts) (by rw [length_pair_up]; omega)
  obtain ⟨r, hr⟩ := List.length_eq_one.mp hlen
  simp [tree_of, hr]

theorem isTree_tree_of {α : Type} (ts : List (Ty α)) (hts : ts ≠ []) :
    IsTree (tree_of ts) := by
  have h := (iterate_pair_up_false ts.length (pair_up true ts)).2.1 (isTree_pair_up_true ts)
  rw [passes_eq_tree_of ts hts] at h
  exact h _ (by simp)

theorem slots_tree_of {α : Type} (ts : List (Ty α)) (hts : ts ≠ [])
    (hd : dummy_type ∉ ts) : slots (tree_of ts) = ts := by
  have h := (iterate_pair_up_false ts.length (pair_up true ts)).1
  rw [passes_eq_tree_of ts hts, slots_pair_up_true ts hd] at h
  simpa using h

/-! ## Sizes and the descent of `get` -/

theorem elem_size_of_isTree {α : Type} (t : Ty α) (h : IsTree t) :
    elem_size t = some (slots t).length := by
  induction h with
  | terminal a b => cases b <;> rfl
  | node a b _ _ iha ihb => simp [elem_size, slots, iha, ihb]

theorem get_of_isTree {α : Type} (t : Ty α) (h : IsTree t) :
    ∀ k, k < (slots t).length →
      ∃ slot, get t k = some slot ∧ (slots t)[k]? = some slot.type := by
  induction h with
  | terminal a b =>
    intro k hk
    by_cases hb : b = dummy_type
    · subst hb
      have hk0 : k = 0 := by simpa [slots] using hk
      subst hk0
      exact ⟨_, rfl, rfl⟩
    · rw [slots_terminal_of_ne a b hb] at hk ⊢
      by_cases hk0 : k = 0
      · subst hk0
        exact ⟨_, rfl, rfl⟩
      · have hk1 : k = 1 := by simp at hk; omega
        subst hk1
        exact ⟨_, rfl, rfl⟩
  | node a b ha _ iha ihb =>
    intro k hk
    simp only [slots, List.length_append] at hk
    by_cases hlt : k < (slots a).length
    · obtain ⟨slot, hs, ht⟩ := iha k hlt
      refine ⟨Slot.under Member.a slot, ?_, ?_⟩
      · simp [get, elem_size_of_isTree a ha, hlt, hs]
      · simpa [slots, List.getElem?_append_left hlt, Slot.under] using ht
    · obtain ⟨slot, hs, ht⟩ := ihb (k - (slots a).length) (by omega)
      refine ⟨Slot.under Member.b slot, ?_, ?_⟩
      · simp [get, elem_size_of_isTree a ha, hlt, hs]
      · simpa [slots, List.getElem?_append_right (Nat.le_of_not_lt hlt), Slot.under] using ht

theorem find_type_i_eq_getElem? {τ : Type} :
    ∀ (ts : List τ) (k : Nat), find_type_i (if k != 0 then 1 else 0) k ts = ts[k]?
  | [], k => by
    by_cases hk : k = 0 <;> simp [hk, find_type_i]
  | t :: ts, 0 => by simp [find_type_i]
  | t :: ts, k + 1 => by
    have ih := find_type_i_eq_getElem? ts k
    by_cases hk : k = 0
    · subst hk
      simpa [find_type_i] using ih
    · simp only [bne_iff_ne, ne_eq, hk, not_false_eq_true, if_true] at ih
      simp [find_type_i, hk, ih]

theorem type_pack_element_eq_getElem? {τ : Type} (k : Nat) (ts : List τ) :
    type_pack_element k ts = ts[k]? :=
  find_type_i_eq_getElem? ts k

theorem construct_of_isTree {α β : Type} [DecidableEq α] (o : Obj α β) (t : Ty α)
    (h : IsTree t) :
    ∀ k, (slots t)[k]? = some o.type →
      ∃ s slot, construct t k o = some s ∧ get t k = some slot ∧
        read s slot.path = some o := by
  induction h with
  | terminal a b =>
    intro k hk
    by_cases hb : b = dummy_type
    · subst hb
      have hk0 : k = 0 := by
        have := (List.getElem?_eq_some.mp hk).1
        simpa [slots] using this
      subst hk0
      have ha : o.type = a := by simpa [slots] using hk.symm
      exact ⟨Storage.member Member.a (Storage.object o), ⟨[Member.a], a⟩,
        by simp [construct, init_member, ha], rfl, by simp [read]⟩
    · rw [slots_terminal_of_ne a b hb] at hk
      by_cases hk0 : k = 0
      · subst hk0
        have ha : o.type = a := by simpa using hk.symm
        exact ⟨Storage.member Member.a (Storage.object o), ⟨[Member.a], a⟩,
          by simp [construct, init_member, ha], rfl, by simp [read]⟩
      · have hk1 : k = 1 := by
          have := (List.getElem?_eq_some.mp hk).1
          simp at this; omega
        subst hk1
        have hb' : o.type = b := by simpa using hk.symm
        exact ⟨Storage.member Member.b (Storage.object o), ⟨[Member.b], b⟩,
          by simp [construct, init_member, hb'], rfl, by simp [read]⟩
  | node a b ha _ iha ihb =>
    intro k hk
    by_cases hlt : k < (slots a).length
    · rw [slots, List.getElem?_append_left hlt] at hk
      obtain ⟨s, slot, hc, hg, hr⟩ := iha k hk
      exact ⟨Storage.member Member.a s, Slot.under Member.a slot,
        by simp [construct, elem_size_of_isTree a ha, hlt, hc],
        by simp [get, elem_size_of_isTree a ha, hlt, hg],
        by simp [read, Slot.under, hr]⟩
    · rw [slots, List.getElem?_append_right (Nat.le_of_not_lt hlt)] at hk
      obtain ⟨s, slot, hc, hg, hr⟩ := ihb _ hk
      exact ⟨Storage.member Member.b s, Slot.under Member.b slot,
        by simp [construct, elem_size_of_isTree a ha, hlt, hc],
        by simp [get, elem_size_of_isTree a ha, hlt, hg],
        by simp [read, Slot.under, hr]⟩

/-! ## Index arithmetic and the order of the alternatives -/

/-- C1: for a pack `Ts` of length `N` in which no type is `dummy_type` and a
position `K < N`, `make_tree_union<Ts...>` names a root (at every instantiation
depth from `2 * N + 2` on), and the descent of `get<K>` from that root ends at a
slot whose type is the `K`-th element of `Ts`, which is
`type_pack_element<K, Ts...>`. -/
theorem get_reaches_kth_alternative {α : Type} (Ts : List (Ty α)) (K : Nat)
    (hd : dummy_type ∉ Ts) (hK : K < Ts.length) :
    ∃ root slot,
      (∀ depth, 2 * Ts.length + 2 ≤ depth →
        make_tree_union depth Ts = Instantiation.type root) ∧
      get root K = some slot ∧
      Ts[K]? = some slot.type ∧
      type_pack_element K Ts = some slot.type := by
  have hne : Ts ≠ [] := by
    intro h; subst h; simp at hK
  have hs := slots_tree_of Ts hne hd
  obtain ⟨slot, hg, ht⟩ := get_of_isTree (tree_of Ts) (isTree_tree_of Ts hne) K (by rw [hs]; exact hK)
  rw [hs] at ht
  exact ⟨tree_of Ts, slot, fun depth h => make_tree_union_eq Ts hne depth h, hg, ht,
    by rw [type_pack_element_eq_getElem?, ht]⟩

/-- Instance of C1 for the pack of three alternatives and `K = 2`. -/
theorem get_reaches_kth_alternative_witness :
    dummy_type ∉ [alt 0, alt 1, (alt 2 : Ty Nat)] ∧
    2 < [alt 0, alt 1, (alt 2 : Ty Nat)].length ∧
    ∃ root slot,
      (∀ depth, 2 * [alt 0, alt 1, (alt 2 : Ty Nat)].length + 2 ≤ depth →
        make_tree_union depth [alt 0, alt 1, alt 2] = Instantiation.type root) ∧
      get root 2 = some slot ∧
      [alt 0, alt 1, (alt 2 : Ty Nat)][2]? = some slot.type ∧
      type_pack_element 2 [alt 0, alt 1, (alt 2 : Ty Nat)] = some slot.type :=
  ⟨by decide, by decide,
    get_reaches_kth_alternative [alt 0, alt 1, alt 2] 2 (by decide) (by decide)⟩

/-- C2 as stated fails: in the pack `alt 0, dummy_type, alt 1` the tree is built
from two terminal nodes of size 1, so the constructor for position 2 is routed
to member `b` of the second terminal node, whose type is `dummy_type`; it cannot
be initialised from an object of the alternative at position 2, and there is
nothing to read back. -/
theorem round_trip_fails_with_dummy_type :
    make_tree_union 8 [alt 0, dummy_type, (alt 1 : Ty Nat)]
      = Instantiation.type
          (variant_union false (variant_union true (alt 0) dummy_type)
            (variant_union true (alt 1) dummy_type)) ∧
    [alt 0, dummy_type, (alt 1 : Ty Nat)][2]? = some (alt 1) ∧
    construct
        (variant_union false (variant_union true (alt 0) dummy_type)
          (variant_union true (alt 1) dummy_type))
        2 (⟨alt 1, 7⟩ : Obj Nat Nat) = none ∧
    (get (variant_union false (variant_union true (alt 0) dummy_type)
          (variant_union true (alt 1 : Ty Nat) dummy_type)) 2).map Slot.type
      = some dummy_type := by
  decide

/-- C2 (amended): for a pack `Ts` of length `N` in which no type is
`dummy_type`, a position `K < N` and an object `v` of the `K`-th alternative,
the in-place-index constructor at `K` builds a value of the root of
`make_tree_union<Ts...>`, `get<K>` names a slot of that root, and reading that
slot gives `v` back. -/
theorem construct_get_round_trip {α β : Type} [DecidableEq α] (Ts : List (Ty α))
    (K : Nat) (v : Obj α β) (hd : dummy_type ∉ Ts) (hK : K < Ts.length)
    (hv : Ts[K]? = some v.type) :
    ∃ root s slot,
      (∀ depth, 2 * Ts.length + 2 ≤ depth →
        make_tree_union depth Ts = Instantiation.type root) ∧
      construct root K v = some s ∧
      get root K = some slot ∧
      read s slot.path = some v := by
  have hne : Ts ≠ [] := by
    intro h; subst h; simp at hK
  have hs := slots_tree_of Ts hne hd
  obtain ⟨s, slot, hc, hg, hr⟩ :=
    construct_of_isTree v (tree_of Ts) (isTree_tree_of Ts hne) K (by rw [hs]; exact hv)
  exact ⟨tree_of Ts, s, slot, fun depth h => make_tree_union_eq Ts hne depth h, hc, hg, hr⟩

/-- Instance of the amended C2: three alternatives, an object of the last. -/
theorem construct_get_round_trip_witness :
    dummy_type ∉ [alt 0, alt 1, (alt 2 : Ty Nat)] ∧
    2 < [alt 0, alt 1, (alt 2 : Ty Nat)].length ∧
    [alt 0, alt 1, (alt 2 : Ty Nat)][2]? = some (⟨alt 2, 42⟩ : Obj Nat Nat).type ∧
    ∃ root s slot,
      (∀ depth, 2 * [alt 0, alt 1, (alt 2 : Ty Nat)].length + 2 ≤ depth →
        make_tree_union depth [alt 0, alt 1, alt 2] = Instantiation.type root) ∧
      construct root 2 (⟨alt 2, 42⟩ : Obj Nat Nat) = some s ∧
      get root 2 = some slot ∧
      read s slot.path = some ⟨alt 2, 42⟩ :=
  ⟨by decide, by decide, by decide,
    construct_get_round_trip [alt 0, alt 1, alt 2] 2 ⟨alt 2, 42⟩ (by decide) (by decide)
      (by decide)⟩

/-- C3 as stated fails: for the pack `alt 0, dummy_type` the root is the
terminal node `variant_union<true, alt 0, dummy_type>`, the same type as for the
pack `alt 0` alone; its slots, read without the `dummy_type` at the back, are
`alt 0` only. -/
theorem slots_lose_dummy_type_alternative :
    make_tree_union 6 [alt 0, (dummy_type : Ty Nat)]
      = Instantiation.type (variant_union true (alt 0) dummy_type) ∧
    make_tree_union 6 [(alt 0 : Ty Nat)]
      = Instantiation.type (variant_union true (alt 0) dummy_type) ∧
    slots (variant_union true (alt 0) (dummy_type : Ty Nat)) = [alt 0] ∧
    slots (variant_union true (alt 0) (dummy_type : Ty Nat)) ≠ [alt 0, dummy_type] := by
  decide

/-- C3 (amended): for a non-empty pack `Ts` in which no type is `dummy_type`,
`make_tree_union<Ts...>` names a root (at every depth from `2 * N + 2` on) whose
alternative slots, read from left to right, are exactly `Ts`: the same types in
the same order, each position once. -/
theorem make_tree_union_preserves_order {α : Type} (Ts : List (Ty α))
    (hne : Ts ≠ []) (hd : dummy_type ∉ Ts) :
    ∃ root,
      (∀ depth, 2 * Ts.length + 2 ≤ depth →
        make_tree_union depth Ts = Instantiation.type root) ∧
      slots root = Ts :=
  ⟨tree_of Ts, fun depth h => make_tree_union_eq Ts hne depth h, slots_tree_of Ts hne hd⟩

/-- Instance of the amended C3 for a pack of five alternatives. -/
theorem make_tree_union_preserves_order_witness :
    [alt 0, alt 1, alt 2, alt 3, (alt 4 : Ty Nat)] ≠ [] ∧
    dummy_type ∉ [alt 0, alt 1, alt 2, alt 3, (alt 4 : Ty Nat)] ∧
    ∃ root,
      (∀ depth, 2 * [alt 0, alt 1, alt 2, alt 3, (alt 4 : Ty Nat)].length + 2 ≤ depth →
        make_tree_union depth [alt 0, alt 1, alt 2, alt 3, alt 4]
          = Instantiation.type root) ∧
      slots root = [alt 0, alt 1, alt 2, alt 3, alt 4] :=
  ⟨by decide, by decide,
    make_tree_union_preserves_order [alt 0, alt 1, alt 2, alt 3, alt 4] (by decide)
      (by decide)⟩

/-- C10: `type_pack_element<K, Ts...>` is checked indexing of the pack: it has a
result exactly when `K < N`, and the result is the `K`-th element of `Ts`. -/
theorem type_pack_element_is_checked_indexing {τ : Type} (Ts : List τ) (K : Nat) :
    ((type_pack_element K Ts).isSome = true ↔ K < Ts.length) ∧
    type_pack_element K Ts = Ts[K]? := by
  refine ⟨?_, type_pack_element_eq_getElem? K Ts⟩
  rw [type_pack_element_eq_getElem?]
  by_cases hK : K < Ts.length
  · simp [hK]
  · simp [hK, List.getElem?_eq_none (Nat.le_of_not_lt hK)]

/-! ## Smallest suitable integer type -/

theorem suitable_index_cons {τ : Type} (max : τ → Nat) (Num : Nat) (t : τ) (ts : List τ) :
    suitable_index max Num (t :: ts)
      = (if Num > max t then 1 else 0) + suitable_index max Num ts := by
  simp [suitable_index]

theorem suitable_index_eq_zero {τ : Type} (max : τ → Nat) (Num : Nat) :
    ∀ ts : List τ, (∀ t ∈ ts, Num ≤ max t) → suitable_index max Num ts = 0
  | [], _ => rfl
  | t :: ts, h => by
    have ht : ¬ Num > max t := Nat.not_lt.mpr (h t (by simp))
    rw [suitable_index_cons, if_neg ht,
      suitable_index_eq_zero max Num ts fun u hu => h u (by simp [hu])]

theorem suitable_index_eq_length {τ : Type} (max : τ → Nat) (Num : Nat) :
    ∀ ts : List τ, (∀ t ∈ ts, max t < Num) → suitable_index max Num ts = ts.length
  | [], _ => rfl
  | t :: ts, h => by
    have ht : Num > max t := h t (by simp)
    rw [suitable_index_cons, if_pos ht,
      suitable_index_eq_length max Num ts fun u hu => h u (by simp [hu])]
    simp [Nat.add_comm]

/-- In an ascending pack the candidates that are too small are the ones before
position `suitable_index`. -/
theorem suitable_index_spec {τ : Type} (max : τ → Nat) (Num : Nat) :
    ∀ ts : List τ, ts.Pairwise (fun a b => max a ≤ max b) →
      (∀ j t, j < suitable_index max Num ts → ts[j]? = some t → max t < Num) ∧
      (∀ t, ts[suitable_index max Num ts]? = some t → Num ≤ max t) ∧
      (suitable_index max Num ts < ts.length ∨ ∀ t ∈ ts, max t < Num)
  | [], _ => by simp [suitable_index]
  | t :: ts, h => by
    obtain ⟨hhead, htail⟩ := List.pairwise_cons.mp h
    obtain ⟨ih1, ih2, ih3⟩ := suitable_index_spec max Num ts htail
    by_cases ht : Num > max t
    · rw [suitable_index_cons, if_pos ht]
      refine ⟨?_, ?_, ?_⟩
      · intro j u hj hu
        cases j with
        | zero =>
          have : u = t := by simpa using hu.symm
          subst this
          exact ht
        | succ j => exact ih1 j u (by omega) (by simpa using hu)
      · intro u hu
        rw [Nat.add_comm] at hu
        exact ih2 u (by simpa using hu)
      · rcases ih3 with h3 | h3
        · left
          simp only [List.length_cons]
          omega
        · right
          intro u hu
          rcases List.mem_cons.mp hu with rfl | hu
          · exact ht
          · exact h3 u hu
    · have hall : ∀ u ∈ ts, Num ≤ max u := fun u hu =>
        Nat.le_trans (Nat.not_lt.mp ht) (hhead u hu)
      rw [suitable_index_cons, if_neg ht, suitable_index_eq_zero max Num ts hall]
      refine ⟨?_, ?_, ?_⟩
      · intro j u hj
        omega
      · intro u hu
        have : u = t := by simpa using hu.symm
        subst this
        exact Nat.not_lt.mp ht
      · left
        simp

theorem smallest_suitable_integer_type_eq {τ : Type} (max : τ → Nat) (Num : Nat)
    (ts : List τ) :
    smallest_suitable_integer_type max Num ts = ts[suitable_index max Num ts]? := by
  cases ts with
  | nil => simp [smallest_suitable_integer_type]
  | cons t ts => simp [smallest_suitable_integer_type, type_pack_element_eq_getElem?]

/-- C8: for a pack of candidates in ascending order of their maxima,
`smallest_suitable_integer_type<Num, Ts...>` is at the position of the computed
index; a selected candidate has a maximum of at least `Num` and every candidate
before it has a maximum below `Num`; a candidate is selected whenever one has a
maximum of at least `Num`; and when none has, the computed index is the length
of the pack and `type_pack_element` gives no result. -/
theorem smallest_suitable_integer_type_first_fit {τ : Type} (max : τ → Nat) (Num : Nat)
    (Ts : List τ) (hs : Ts.Pairwise (fun a b => max a ≤ max b)) :
    (∀ W, smallest_suitable_integer_type max Num Ts = some W →
      ∃ i : Nat, Ts[i]? = some W ∧ Num ≤ max W ∧
        ∀ (j : Nat) (t : τ), j < i → Ts[j]? = some t → max t < Num) ∧
    ((∃ t ∈ Ts, Num ≤ max t) →
      ∃ W, smallest_suitable_integer_type max Num Ts = some W) ∧
    ((∀ t ∈ Ts, max t < Num) →
      suitable_index max Num Ts = Ts.length ∧
      type_pack_element (suitable_index max Num Ts) Ts = none ∧
      smallest_suitable_integer_type max Num Ts = none) := by
  obtain ⟨h1, h2, h3⟩ := suitable_index_spec max Num Ts hs
  refine ⟨?_, ?_, ?_⟩
  · intro W hW
    rw [smallest_suitable_integer_type_eq] at hW
    exact ⟨suitable_index max Num Ts, hW, h2 W hW, h1⟩
  · rintro ⟨t, ht, hfit⟩
    rw [smallest_suitable_integer_type_eq]
    rcases h3 with h3 | h3
    · exact ⟨Ts[suitable_index max Num Ts], List.getElem?_eq_getElem h3⟩
    · exact absurd (h3 t ht) (Nat.not_lt.mpr hfit)
  · intro hall
    have hlen := suitable_index_eq_length max Num Ts hall
    refine ⟨hlen, ?_, ?_⟩
    · rw [type_pack_element_eq_getElem?, hlen]
      simp
    · rw [smallest_suitable_integer_type_eq, hlen]
      simp

/-- Instance of C8: the three candidate index types and the count 300. -/
theorem smallest_suitable_integer_type_first_fit_witness :
    index_candidates.Pairwise (fun a b => IndexType.max a ≤ IndexType.max b) ∧
    smallest_suitable_integer_type IndexType.max 300 index_candidates
      = some IndexType.unsigned_short ∧
    ((∀ W, smallest_suitable_integer_type IndexType.max 300 index_candidates = some W →
      ∃ i : Nat, index_candidates[i]? = some W ∧ 300 ≤ IndexType.max W ∧
        ∀ (j : Nat) (t : IndexType), j < i → index_candidates[j]? = some t → IndexType.max t < 300) ∧
    ((∃ t ∈ index_candidates, 300 ≤ IndexType.max t) →
      ∃ W, smallest_suitable_integer_type IndexType.max 300 index_candidates = some W) ∧
    ((∀ t ∈ index_candidates, IndexType.max t < 300) →
      suitable_index IndexType.max 300 index_candidates = index_candidates.length ∧
      type_pack_element (suitable_index IndexType.max 300 index_candidates)
        index_candidates = none ∧
      smallest_suitable_integer_type IndexType.max 300 index_candidates = none)) :=
  ⟨by decide, by decide,
    smallest_suitable_integer_type_first_fit IndexType.max 300 index_candidates (by decide)⟩

/-- C9 as stated fails: with the count `M = 256` the selector takes the 16-bit
candidate, although `M - 1 = 255` does not exceed the maximum of the 8-bit
candidate. -/
theorem index_type_threshold_is_not_count_minus_one :
    smallest_suitable_integer_type IndexType.max 256 index_candidates
      = some IndexType.unsigned_short ∧
    256 - 1 ≤ IndexType.max IndexType.unsigned_char ∧
    IndexType.max IndexType.unsigned_char < IndexType.max IndexType.unsigned_short := by
  decide

/-- C9 (amended): with the count `M` as the selector's argument and the
candidates of 8, 16 and 32 bits, the selector names the narrowest candidate `W`
with `M <= max(W)`: the 8-bit type up to 255, the 16-bit type up to 65535, the
32-bit type up to 4294967295, and no type for a larger count. -/
theorem index_type_threshold (M : Nat) :
    smallest_suitable_integer_type IndexType.max M index_candidates
      = index_candidates.find? (fun W => decide (M ≤ IndexType.max W)) ∧
    smallest_suitable_integer_type IndexType.max M index_candidates
      = (if M ≤ 255 then some IndexType.unsigned_char
         else if M ≤ 65535 then some IndexType.unsigned_short
         else if M ≤ 4294967295 then some IndexType.unsigned_int
         else none) := by
  have h1 : (M > 255) = (¬ M ≤ 255) := by simp
  have h2 : (M > 65535) = (¬ M ≤ 65535) := by simp
  have h3 : (M > 4294967295) = (¬ M ≤ 4294967295) := by simp
  simp only [smallest_suitable_integer_type_eq, index_candidates, suitable_index,
    IndexType.max, List.map_cons, List.map_nil, List.sum_cons, List.sum_nil, h1, h2, h3,
    List.find?_cons, List.find?_nil]
  by_cases a : M ≤ 255
  · have b : M ≤ 65535 := by omega
    have c : M ≤ 4294967295 := by omega
    simp [a, b, c]
  · by_cases b : M ≤ 65535
    · have c : M ≤ 4294967295 := by omega
      simp [a, b, c]
    · by_cases c : M ≤ 4294967295
      · simp [a, b, c]
      · simp [a, b, c]

/-! ## Special member functions of the tree -/

/-- A property of types that a union node has exactly when both members have
it, and that `dummy_type` has, holds for the root exactly when it holds for
every type of the pack. -/
theorem pair_up_forall_iff {α : Type} (Q : Ty α → Prop)
    (hq : ∀ fp a b, Q (variant_union fp a b) ↔ Q a ∧ Q b) (hdummy : Q dummy_type)
    (fp : Bool) :
    ∀ ts : List (Ty α), (∀ u ∈ pair_up fp ts, Q u) ↔ ∀ t ∈ ts, Q t
  | [] => by simp [pair_up]
  | [a] => by
    cases fp <;> simp [pair_up, hq, hdummy]
  | a :: b :: ts => by
    have ih := pair_up_forall_iff Q hq hdummy fp ts
    simp only [pair_up, List.forall_mem_cons, hq, ih, and_assoc]

theorem tree_of_iff_forall {α : Type} (Q : Ty α → Prop)
    (hq : ∀ fp a b, Q (variant_union fp a b) ↔ Q a ∧ Q b) (hdummy : Q dummy_type)
    (ts : List (Ty α)) (hts : ts ≠ []) :
    Q (tree_of ts) ↔ ∀ t ∈ ts, Q t := by
  have hiter : ∀ (n : Nat) (us : List (Ty α)),
      (∀ u ∈ (pair_up false)^[n] us, Q u) ↔ ∀ t ∈ us, Q t := by
    intro n
    induction n with
    | zero => intro us; rfl
    | succ n ih =>
      intro us
      rw [Function.iterate_succ_apply, ih, pair_up_forall_iff Q hq hdummy]
  have h := hiter ts.length (pair_up true ts)
  rw [passes_eq_tree_of ts hts, pair_up_forall_iff Q hq hdummy] at h
  simpa using h

theorem SFM_is_trivially (A B : Support) :
    (SFM A B).is_trivially = true ↔ A.is_trivially = true ∧ B.is_trivially = true := by
  cases A <;> cases B <;> decide

theorem SFM_is (A B : Support) :
    (SFM A B).is = true ↔ A.is = true ∧ B.is = true := by
  cases A <;> cases B <;> decide


theorem pair_up_forall_of_forall {α : Type} (Q : Ty α → Prop)
    (hq : ∀ fp a b, Q a → Q b → Q (variant_union fp a b)) (hdummy : Q dummy_type)
    (fp : Bool) :
    ∀ ts : List (Ty α), (∀ t ∈ ts, Q t) → ∀ u ∈ pair_up fp ts, Q u
  | [], _ => by simp [pair_up]
  | [a], h => by
    intro u hu
    have ha : Q a := h a (by simp)
    cases fp
    · have hu' : u = a := by simpa [pair_up] using hu
      rw [hu']
      exact ha
    · have hu' : u = variant_union true a dummy_type := by simpa [pair_up] using hu
      rw [hu']
      exact hq _ _ _ ha hdummy
  | a :: b :: ts, h => by
    intro u hu
    simp only [pair_up, List.mem_cons] at hu
    rcases hu with rfl | hu
    · exact hq _ _ _ (h a (by simp)) (h b (by simp))
    · exact pair_up_forall_of_forall Q hq hdummy fp ts (fun t ht => h t (by simp [ht])) u hu

theorem forall_of_pair_up_forall {α : Type} (Q : Ty α → Prop)
    (hq : ∀ fp a b, Q (variant_union fp a b) → Q a ∧ Q b) (fp : Bool) :
    ∀ ts : List (Ty α), (∀ u ∈ pair_up fp ts, Q u) → ∀ t ∈ ts, Q t
  | [], _ => by simp
  | [a], h => by
    intro t ht
    have ht' : t = a := by simpa using ht
    rw [ht']
    cases fp
    · exact h a (by simp [pair_up])
    · exact (hq _ _ _ (h (variant_union true a dummy_type) (by simp [pair_up]))).1
  | a :: b :: ts, h => by
    intro t ht
    have hab := hq _ _ _ (h (variant_union fp a b) (by simp [pair_up]))
    simp only [List.mem_cons] at ht
    rcases ht with rfl | rfl | ht
    · exact hab.1
    · exact hab.2
    · exact forall_of_pair_up_forall Q hq fp ts (fun u hu => h u (by simp [pair_up, hu])) t ht

/-- A property that a union node has when both members have it, and that
`dummy_type` has, holds for the root when it holds for every type of the
pack. -/
theorem tree_of_of_forall {α : Type} (Q : Ty α → Prop)
    (hq : ∀ fp a b, Q a → Q b → Q (variant_union fp a b)) (hdummy : Q dummy_type)
    (ts : List (Ty α)) (hts : ts ≠ []) (h : ∀ t ∈ ts, Q t) : Q (tree_of ts) := by
  have hiter : ∀ (n : Nat) (us : List (Ty α)),
      (∀ t ∈ us, Q t) → ∀ u ∈ (pair_up false)^[n] us, Q u := by
    intro n
    induction n with
    | zero => intro us hus; exact hus
    | succ n ih =>
      intro us hus
      rw [Function.iterate_succ_apply]
      exact ih _ (pair_up_forall_of_forall Q hq hdummy false us hus)
  have := hiter ts.length (pair_up true ts) (pair_up_forall_of_forall Q hq hdummy true ts h)
  rw [passes_eq_tree_of ts hts] at this
  exact this _ (by simp)

/-- A property that the members of a union node have when the node has it holds
for every type of the pack when it holds for the root. -/
theorem forall_of_tree_of {α : Type} (Q : Ty α → Prop)
    (hq : ∀ fp a b, Q (variant_union fp a b) → Q a ∧ Q b)
    (ts : List (Ty α)) (hts : ts ≠ []) (h : Q (tree_of ts)) : ∀ t ∈ ts, Q t := by
  have hiter : ∀ (n : Nat) (us : List (Ty α)),
      (∀ u ∈ (pair_up false)^[n] us, Q u) → ∀ t ∈ us, Q t := by
    intro n
    induction n with
    | zero => intro us hus; exact hus
    | succ n ih =>
      intro us hus
      rw [Function.iterate_succ_apply] at hus
      exact forall_of_pair_up_forall Q hq false us (ih _ hus)
  apply forall_of_pair_up_forall Q hq true ts
  apply hiter ts.length
  rw [passes_eq_tree_of ts hts]
  simpa using h

theorem copy_counterpart_of_copy (op copy : SpecialMember)
    (h : copy_counterpart op = some copy) : copy_counterpart copy = none := by
  cases op <;> simp [copy_counterpart] at h <;> subst h <;> rfl

theorem INJECT_eq_SFM (A B : SpecialMember → Support) (op : SpecialMember)
    (h : copy_counterpart op = none) :
    INJECT_UNION_SFM_FRAG A B op = SFM (A op) (B op) := by
  simp only [INJECT_UNION_SFM_FRAG, h]
  cases SFM (A op) (B op) <;> rfl

theorem INJECT_is_trivially_of (A B : SpecialMember → Support) (op : SpecialMember)
    (hA : (A op).is_trivially = true) (hB : (B op).is_trivially = true) :
    (INJECT_UNION_SFM_FRAG A B op).is_trivially = true := by
  have h : SFM (A op) (B op) = Support.trivial := by
    revert hA hB
    cases A op <;> cases B op <;> decide
  simp only [INJECT_UNION_SFM_FRAG, h]
  cases copy_counterpart op <;> rfl

theorem INJECT_is_of (A B : SpecialMember → Support) (op : SpecialMember)
    (hA : (A op).is = true) (hB : (B op).is = true) :
    (INJECT_UNION_SFM_FRAG A B op).is = true := by
  have h : (SFM (A op) (B op)).is = true := (SFM_is _ _).mpr ⟨hA, hB⟩
  simp only [INJECT_UNION_SFM_FRAG]
  cases hs : SFM (A op) (B op) with
  | absent => rw [hs] at h; exact absurd h (by decide)
  | non_trivial => cases copy_counterpart op <;> rfl
  | trivial => cases copy_counterpart op <;> rfl

theorem INJECT_move_eq (A B : SpecialMember → Support) (op copy : SpecialMember)
    (h : copy_counterpart op = some copy) :
    INJECT_UNION_SFM_FRAG A B op
      = if SFM (A op) (B op) = Support.absent then SFM (A copy) (B copy)
        else SFM (A op) (B op) := by
  simp only [INJECT_UNION_SFM_FRAG, h]
  cases SFM (A op) (B op) <;> simp

/-- The move operations of a union: trivial when both members have the move
trivially, or when the members do not both offer the move and both have the
copy operation trivially. -/
theorem INJECT_move_is_trivially (A B : SpecialMember → Support) (op copy : SpecialMember)
    (h : copy_counterpart op = some copy) :
    (INJECT_UNION_SFM_FRAG A B op).is_trivially = true ↔
      ((A op).is_trivially = true ∧ (B op).is_trivially = true) ∨
      (¬ ((A op).is = true ∧ (B op).is = true) ∧
        (A copy).is_trivially = true ∧ (B copy).is_trivially = true) := by
  rw [INJECT_move_eq A B op copy h]
  generalize A op = x
  generalize B op = y
  generalize A copy = x'
  generalize B copy = y'
  cases x <;> cases y <;> cases x' <;> cases y' <;> decide

/-- The move operations of a union: offered when both members offer the move, or
when both offer the copy operation. -/
theorem INJECT_move_is (A B : SpecialMember → Support) (op copy : SpecialMember)
    (h : copy_counterpart op = some copy) :
    (INJECT_UNION_SFM_FRAG A B op).is = true ↔
      ((A op).is = true ∧ (B op).is = true) ∨ ((A copy).is = true ∧ (B copy).is = true) := by
  rw [INJECT_move_eq A B op copy h]
  generalize A op = x
  generalize B op = y
  generalize A copy = x'
  generalize B copy = y'
  cases x <;> cases y <;> cases x' <;> cases y' <;> decide

theorem sfm_union (α : Type) (traits : α → SpecialMember → Support) (op : SpecialMember)
    (fp : Bool) (a b : Ty α) :
    sfm traits op (variant_union fp a b)
      = INJECT_UNION_SFM_FRAG (fun o => sfm traits o a) (fun o => sfm traits o b) op := rfl

/-- For the copy operations and the destructor, the root has the operation with a
property of `SFM` (offered, or trivial) exactly when every alternative has. -/
theorem sfm_root_iff {α : Type} (traits : α → SpecialMember → Support) (P : Support → Bool)
    (hP : ∀ A B, P (SFM A B) = true ↔ P A = true ∧ P B = true)
    (hdummy : P Support.trivial = true)
    (names : List α) (hne : names ≠ []) (op : SpecialMember)
    (hop : copy_counterpart op = none) :
    (P (sfm traits op (tree_of (names.map alt))) = true ↔
      ∀ a ∈ names, P (traits a op) = true) ∧
    (P (variant_top_union_sfm traits op (tree_of (names.map alt))) = true ↔
      ∀ a ∈ names, P (traits a op) = true) := by
  have hts : names.map (alt : α → Ty α) ≠ [] := by simpa using hne
  have hroot := tree_of_iff_forall (fun t => P (sfm traits op t) = true)
    (fun fp a b => by
      show P (sfm traits op (variant_union fp a b)) = true ↔ _
      rw [sfm_union, INJECT_eq_SFM _ _ op hop]
      exact hP _ _)
    hdummy (names.map alt) hts
  have hroot' : P (sfm traits op (tree_of (names.map alt))) = true ↔
      ∀ a ∈ names, P (traits a op) = true := by
    refine Iff.trans hroot ?_
    simp [sfm]
  refine ⟨hroot', ?_⟩
  rw [variant_top_union_sfm, INJECT_eq_SFM _ _ op hop, hP, ← hroot']
  simp [sfm, hdummy]

/-- When every alternative has an operation with a property that `SFM` and the
fall-back preserve, so has the root, and the `variant_top_union` around it. -/
theorem sfm_root_of_forall {α : Type} (traits : α → SpecialMember → Support)
    (P : Support → Bool)
    (hP : ∀ (A B : SpecialMember → Support) (op : SpecialMember),
      P (A op) = true → P (B op) = true → P (INJECT_UNION_SFM_FRAG A B op) = true)
    (hdummy : P Support.trivial = true)
    (names : List α) (hne : names ≠ []) (op : SpecialMember)
    (h : ∀ a ∈ names, P (traits a op) = true) :
    P (sfm traits op (tree_of (names.map alt))) = true ∧
    P (variant_top_union_sfm traits op (tree_of (names.map alt))) = true := by
  have hts : names.map (alt : α → Ty α) ≠ [] := by simpa using hne
  have hroot := tree_of_of_forall (fun t => P (sfm traits op t) = true)
    (fun fp a b ha hb => hP (fun o => sfm traits o a) (fun o => sfm traits o b) op ha hb)
    hdummy (names.map alt) hts (by simpa [sfm] using h)
  exact ⟨hroot, hP (fun o => sfm traits o (tree_of (names.map alt)))
    (fun o => sfm traits o dummy_type) op hroot hdummy⟩

/-- When the root, or the `variant_top_union` around it, has a move operation
with a property, every alternative has the move or the copy operation with
it. -/
theorem sfm_root_move {α : Type} (traits : α → SpecialMember → Support)
    (P : Support → Bool)
    (hP : ∀ A B, P (SFM A B) = true ↔ P A = true ∧ P B = true)
    (hmove : ∀ (A B : SpecialMember → Support) (op copy : SpecialMember),
      copy_counterpart op = some copy → P (INJECT_UNION_SFM_FRAG A B op) = true →
        (P (A op) = true ∧ P (B op) = true) ∨ (P (A copy) = true ∧ P (B copy) = true))
    (names : List α) (hne : names ≠ []) (op copy : SpecialMember)
    (hop : copy_counterpart op = some copy)
    (h : P (sfm traits op (tree_of (names.map alt))) = true ∨
      P (variant_top_union_sfm traits op (tree_of (names.map alt))) = true) :
    ∀ a ∈ names, P (traits a op) = true ∨ P (traits a copy) = true := by
  have hts : names.map (alt : α → Ty α) ≠ [] := by simpa using hne
  have hcopy := copy_counterpart_of_copy op copy hop
  have hnode : ∀ (A B : SpecialMember → Support),
      (P (INJECT_UNION_SFM_FRAG A B op) = true ∨ P (INJECT_UNION_SFM_FRAG A B copy) = true) →
      (P (A op) = true ∨ P (A copy) = true) ∧ (P (B op) = true ∨ P (B copy) = true) := by
    intro A B hAB
    rcases hAB with hm | hc
    · rcases hmove A B op copy hop hm with ⟨h1, h2⟩ | ⟨h1, h2⟩
      · exact ⟨Or.inl h1, Or.inl h2⟩
      · exact ⟨Or.inr h1, Or.inr h2⟩
    · rw [INJECT_eq_SFM _ _ copy hcopy, hP] at hc
      exact ⟨Or.inr hc.1, Or.inr hc.2⟩
  have hroot : P (sfm traits op (tree_of (names.map alt))) = true ∨
      P (sfm traits copy (tree_of (names.map alt))) = true := by
    rcases h with h | h
    · exact Or.inl h
    · exact (hnode _ _ (Or.inl h)).1
  have := forall_of_tree_of
    (fun t => P (sfm traits op t) = true ∨ P (sfm traits copy t) = true)
    (fun fp a b hab => hnode (fun o => sfm traits o a) (fun o => sfm traits o b) hab)
    (names.map alt) hts hroot
  intro a ha
  simpa [sfm] using this (alt a) (by simp [ha])

/-- C6 as stated fails for move construction: the root for the alternatives
`int` and `TCopy` of the test is one terminal node; its defaulted move
constructor is deleted, because that of `TCopy` is, and so left out of overload
resolution, and its defaulted copy constructor, which is trivial, serves: the
root is trivially move-constructible, and `TCopy` is not. -/
theorem root_trivially_move_constructible_without_alternative :
    make_tree_union 6 [alt TestClass.int, alt TestClass.TCopy]
      = Instantiation.type (variant_union true (alt TestClass.int) (alt TestClass.TCopy)) ∧
    (sfm test_traits SpecialMember.move_constructible
      (variant_union true (alt TestClass.int) (alt TestClass.TCopy))).is_trivially = true ∧
    (test_traits TestClass.TCopy SpecialMember.move_constructible).is_trivially = false := by
  decide

/-- C6 (amended): for a non-empty pack of alternatives, the root that
`make_tree_union` names, and the `variant_top_union` around it, has copy
construction, copy assignment and destruction trivially exactly when every
alternative has the operation trivially.  It has move construction and move
assignment trivially when every alternative has; and when it has one of them
trivially, every alternative has that move operation or the corresponding copy
operation trivially.  A single union node has a move operation trivially exactly
when both members have it trivially, or when the members do not both offer the
move and both have the corresponding copy operation trivially. -/
theorem triviality_propagation {α : Type} (traits : α → SpecialMember → Support)
    (names : List α) (hne : names ≠ []) :
    (∀ (A B : SpecialMember → Support) (op copy : SpecialMember),
      (op = SpecialMember.move_constructible ∧ copy = SpecialMember.copy_constructible) ∨
        (op = SpecialMember.move_assignable ∧ copy = SpecialMember.copy_assignable) →
      ((INJECT_UNION_SFM_FRAG A B op).is_trivially = true ↔
        ((A op).is_trivially = true ∧ (B op).is_trivially = true) ∨
        (¬ ((A op).is = true ∧ (B op).is = true) ∧
          (A copy).is_trivially = true ∧ (B copy).is_trivially = true))) ∧
    ∃ root,
      (∀ depth, 2 * names.length + 2 ≤ depth →
        make_tree_union depth (names.map alt) = Instantiation.type root) ∧
      (∀ op, op = SpecialMember.copy_constructible ∨ op = SpecialMember.copy_assignable ∨
          op = SpecialMember.destructible →
        ((sfm traits op root).is_trivially = true ↔
          ∀ a ∈ names, (traits a op).is_trivially = true) ∧
        ((variant_top_union_sfm traits op root).is_trivially = true ↔
          ∀ a ∈ names, (traits a op).is_trivially = true)) ∧
      (∀ op, (∀ a ∈ names, (traits a op).is_trivially = true) →
        (sfm traits op root).is_trivially = true ∧
        (variant_top_union_sfm traits op root).is_trivially = true) ∧
      (∀ op copy,
        (op = SpecialMember.move_constructible ∧ copy = SpecialMember.copy_constructible) ∨
          (op = SpecialMember.move_assignable ∧ copy = SpecialMember.copy_assignable) →
        (sfm traits op root).is_trivially = true ∨
          (variant_top_union_sfm traits op root).is_trivially = true →
        ∀ a ∈ names, (traits a op).is_trivially = true ∨
          (traits a copy).is_trivially = true) := by
  have hts : names.map (alt : α → Ty α) ≠ [] := by simpa using hne
  refine ⟨?_, tree_of (names.map alt), fun depth h =>
    make_tree_union_eq _ hts depth (by simpa using h), ?_, ?_, ?_⟩
  · intro A B op copy hop
    refine INJECT_move_is_trivially A B op copy ?_
    rcases hop with ⟨rfl, rfl⟩ | ⟨rfl, rfl⟩ <;> rfl
  · intro op hop
    refine sfm_root_iff traits Support.is_trivially SFM_is_trivially rfl names hne op ?_
    rcases hop with rfl | rfl | rfl <;> rfl
  · intro op h
    exact sfm_root_of_forall traits Support.is_trivially INJECT_is_trivially_of rfl
      names hne op h
  · intro op copy hop h
    refine sfm_root_move traits Support.is_trivially SFM_is_trivially ?_ names hne op copy ?_ h
    · intro A B op copy hc hm
      rcases (INJECT_move_is_trivially A B op copy hc).mp hm with h1 | ⟨_, h2⟩
      · exact Or.inl h1
      · exact Or.inr h2
    · rcases hop with ⟨rfl, rfl⟩ | ⟨rfl, rfl⟩ <;> rfl

/-- Instance of the amended C6: the alternatives `int` and `TCopy` of the
test. -/
theorem triviality_propagation_witness :
    [TestClass.int, TestClass.TCopy] ≠ [] ∧
    ((∀ (A B : SpecialMember → Support) (op copy : SpecialMember),
      (op = SpecialMember.move_constructible ∧ copy = SpecialMember.copy_constructible) ∨
        (op = SpecialMember.move_assignable ∧ copy = SpecialMember.copy_assignable) →
      ((INJECT_UNION_SFM_FRAG A B op).is_trivially = true ↔
        ((A op).is_trivially = true ∧ (B op).is_trivially = true) ∨
        (¬ ((A op).is = true ∧ (B op).is = true) ∧
          (A copy).is_trivially = true ∧ (B copy).is_trivially = true))) ∧
    ∃ root,
      (∀ depth, 2 * [TestClass.int, TestClass.TCopy].length + 2 ≤ depth →
        make_tree_union depth ([TestClass.int, TestClass.TCopy].map alt)
          = Instantiation.type root) ∧
      (∀ op, op = SpecialMember.copy_constructible ∨ op = SpecialMember.copy_assignable ∨
          op = SpecialMember.destructible →
        ((sfm test_traits op root).is_trivially = true ↔
          ∀ a ∈ [TestClass.int, TestClass.TCopy], (test_traits a op).is_trivially = true) ∧
        ((variant_top_union_sfm test_traits op root).is_trivially = true ↔
          ∀ a ∈ [TestClass.int, TestClass.TCopy], (test_traits a op).is_trivially = true)) ∧
      (∀ op, (∀ a ∈ [TestClass.int, TestClass.TCopy],
          (test_traits a op).is_trivially = true) →
        (sfm test_traits op root).is_trivially = true ∧
        (variant_top_union_sfm test_traits op root).is_trivially = true) ∧
      (∀ op copy,
        (op = SpecialMember.move_constructible ∧ copy = SpecialMember.copy_constructible) ∨
          (op = SpecialMember.move_assignable ∧ copy = SpecialMember.copy_assignable) →
        (sfm test_traits op root).is_trivially = true ∨
          (variant_top_union_sfm test_traits op root).is_trivially = true →
        ∀ a ∈ [TestClass.int, TestClass.TCopy], (test_traits a op).is_trivially = true ∨
          (test_traits a copy).is_trivially = true)) :=
  ⟨by decide, triviality_propagation test_traits [TestClass.int, TestClass.TCopy] (by decide)⟩

/-- C7 as stated fails for move construction: the root for the alternatives
`int` and `NTCopy` of the test is one terminal node; its defaulted move
constructor is deleted and left out of overload resolution, the constrained move
constructor is not offered because `NTCopy` is not move-constructible, and the
constrained copy constructor serves: the root is move-constructible, and
`NTCopy` is not. -/
theorem root_move_constructible_without_alternative :
    make_tree_union 6 [alt TestClass.int, alt TestClass.NTCopy]
      = Instantiation.type (variant_union true (alt TestClass.int) (alt TestClass.NTCopy)) ∧
    (sfm test_traits SpecialMember.move_constructible
      (variant_union true (alt TestClass.int) (alt TestClass.NTCopy))).is = true ∧
    (test_traits TestClass.NTCopy SpecialMember.move_constructible).is = false := by
  decide

/-- C7 (amended): a union node offers copy construction, copy assignment and
destruction exactly when both of its members offer the operation: by the
function that is defaulted when both have it trivially, by the constrained
function with the empty body when both offer it but not both trivially.  It offers move
construction and move assignment exactly when both members offer the move or
both offer the corresponding copy operation.  So for a non-empty pack the root
that `make_tree_union` names offers a copy operation or destruction exactly when
every alternative does, offers each of the five operations when every
alternative does, and when it offers a move operation every alternative offers
that move or the corresponding copy operation. -/
theorem availability_propagation {α : Type} (traits : α → SpecialMember → Support)
    (names : List α) (hne : names ≠ []) :
    (∀ A B : Support,
      ((SFM A B).is = true ↔ A.is = true ∧ B.is = true) ∧
      (SFM A B = Support.trivial ↔ A.is_trivially = true ∧ B.is_trivially = true) ∧
      (SFM A B = Support.non_trivial ↔
        (A.is = true ∧ B.is = true) ∧ ¬ (A.is_trivially = true ∧ B.is_trivially = true))) ∧
    (∀ (A B : SpecialMember → Support) (op : SpecialMember),
      (op = SpecialMember.copy_constructible ∨ op = SpecialMember.copy_assignable ∨
          op = SpecialMember.destructible →
        INJECT_UNION_SFM_FRAG A B op = SFM (A op) (B op)) ∧
      (∀ copy,
        (op = SpecialMember.move_constructible ∧ copy = SpecialMember.copy_constructible) ∨
          (op = SpecialMember.move_assignable ∧ copy = SpecialMember.copy_assignable) →
        ((INJECT_UNION_SFM_FRAG A B op).is = true ↔
          ((A op).is = true ∧ (B op).is = true) ∨
          ((A copy).is = true ∧ (B copy).is = true)))) ∧
    ∃ root,
      (∀ depth, 2 * names.length + 2 ≤ depth →
        make_tree_union depth (names.map alt) = Instantiation.type root) ∧
      (∀ op, op = SpecialMember.copy_constructible ∨ op = SpecialMember.copy_assignable ∨
          op = SpecialMember.destructible →
        ((sfm traits op root).is = true ↔ ∀ a ∈ names, (traits a op).is = true)) ∧
      (∀ op, (∀ a ∈ names, (traits a op).is = true) → (sfm traits op root).is = true) ∧
      (∀ op copy,
        (op = SpecialMember.move_constructible ∧ copy = SpecialMember.copy_constructible) ∨
          (op = SpecialMember.move_assignable ∧ copy = SpecialMember.copy_assignable) →
        (sfm traits op root).is = true →
        ∀ a ∈ names, (traits a op).is = true ∨ (traits a copy).is = true) := by
  have hts : names.map (alt : α → Ty α) ≠ [] := by simpa using hne
  refine ⟨fun A B => by cases A <;> cases B <;> decide, ?_,
    tree_of (names.map alt), fun depth h =>
      make_tree_union_eq _ hts depth (by simpa using h), ?_, ?_, ?_⟩
  · intro A B op
    refine ⟨?_, ?_⟩
    · intro hop
      refine INJECT_eq_SFM A B op ?_
      rcases hop with rfl | rfl | rfl <;> rfl
    · intro copy hop
      refine INJECT_move_is A B op copy ?_
      rcases hop with ⟨rfl, rfl⟩ | ⟨rfl, rfl⟩ <;> rfl
  · intro op hop
    refine (sfm_root_iff traits Support.is SFM_is rfl names hne op ?_).1
    rcases hop with rfl | rfl | rfl <;> rfl
  · intro op h
    exact (sfm_root_of_forall traits Support.is INJECT_is_of rfl names hne op h).1
  · intro op copy hop h
    refine sfm_root_move traits Support.is SFM_is ?_ names hne op copy ?_ (Or.inl h)
    · intro A B op copy hc hm
      exact (INJECT_move_is A B op copy hc).mp hm
    · rcases hop with ⟨rfl, rfl⟩ | ⟨rfl, rfl⟩ <;> rfl

/-- Instance of the amended C7: the alternatives `int` and `NTCopy` of the
test. -/
theorem availability_propagation_witness :
    [TestClass.int, TestClass.NTCopy] ≠ [] ∧
    ((∀ A B : Support,
      ((SFM A B).is = true ↔ A.is = true ∧ B.is = true) ∧
      (SFM A B = Support.trivial ↔ A.is_trivially = true ∧ B.is_trivially = true) ∧
      (SFM A B = Support.non_trivial ↔
        (A.is = true ∧ B.is = true) ∧ ¬ (A.is_trivially = true ∧ B.is_trivially = true))) ∧
    (∀ (A B : SpecialMember → Support) (op : SpecialMember),
      (op = SpecialMember.copy_constructible ∨ op = SpecialMember.copy_assignable ∨
          op = SpecialMember.destructible →
        INJECT_UNION_SFM_FRAG A B op = SFM (A op) (B op)) ∧
      (∀ copy,
        (op = SpecialMember.move_constructible ∧ copy = SpecialMember.copy_constructible) ∨
          (op = SpecialMember.move_assignable ∧ copy = SpecialMember.copy_assignable) →
        ((INJECT_UNION_SFM_FRAG A B op).is = true ↔
          ((A op).is = true ∧ (B op).is = true) ∨
          ((A copy).is = true ∧ (B copy).is = true)))) ∧
    ∃ root,
      (∀ depth, 2 * [TestClass.int, TestClass.NTCopy].length + 2 ≤ depth →
        make_tree_union depth ([TestClass.int, TestClass.NTCopy].map alt)
          = Instantiation.type root) ∧
      (∀ op, op = SpecialMember.copy_constructible ∨ op = SpecialMember.copy_assignable ∨
          op = SpecialMember.destructible →
        ((sfm test_traits op root).is = true ↔
          ∀ a ∈ [TestClass.int, TestClass.NTCopy], (test_traits a op).is = true)) ∧
      (∀ op, (∀ a ∈ [TestClass.int, TestClass.NTCopy], (test_traits a op).is = true) →
        (sfm test_traits op root).is = true) ∧
      (∀ op copy,
        (op = SpecialMember.move_constructible ∧ copy = SpecialMember.copy_constructible) ∨
          (op = SpecialMember.move_assignable ∧ copy = SpecialMember.copy_assignable) →
        (sfm test_traits op root).is = true →
        ∀ a ∈ [TestClass.int, TestClass.NTCopy],
          (test_traits a op).is = true ∨ (test_traits a copy).is = true)) :=
  ⟨by decide,
    availability_propagation test_traits [TestClass.int, TestClass.NTCopy] (by decide)⟩

/-! ## Best overload match -/

theorem getElem?_make_overload {τ : Type} (Ts : List τ) (n : Nat) :
    (make_overload Ts)[n]? = Ts[n]?.map (overload_frag.mk n) := by
  simp only [make_overload, List.getElem?_zipWith]
  by_cases hn : n < Ts.length
  · simp [List.getElem?_range hn, List.getElem?_eq_getElem hn]
  · simp [List.getElem?_eq_none (Nat.le_of_not_lt hn)]

theorem mem_make_overload {τ : Type} (Ts : List τ) (f : overload_frag τ) :
    f ∈ make_overload Ts ↔ Ts[f.N]? = some f.type := by
  rw [List.mem_iff_getElem?]
  constructor
  · rintro ⟨n, hn⟩
    rw [getElem?_make_overload] at hn
    obtain ⟨a, ha, rfl⟩ := Option.map_eq_some'.mp hn
    exact ha
  · intro h
    exact ⟨f.N, by rw [getElem?_make_overload, h]; rfl⟩

theorem nodup_make_overload {τ : Type} (Ts : List τ) : (make_overload Ts).Nodup := by
  apply List.Nodup.of_map overload_frag.N
  have : (make_overload Ts).map overload_frag.N = List.range Ts.length := by
    apply List.ext_getElem?
    intro n
    rw [List.getElem?_map, getElem?_make_overload]
    by_cases hn : n < Ts.length
    · simp [List.getElem?_range hn, List.getElem?_eq_getElem hn]
    · have hle : Ts.length ≤ n := Nat.le_of_not_lt hn
      rw [List.getElem?_eq_none hle, List.getElem?_eq_none (by simpa using hle)]
      rfl
  rw [this]
  exact List.nodup_range _

theorem filter_eq_singleton {β : Type} (p : β → Bool) (c : β) :
    ∀ l : List β, l.Nodup → c ∈ l → p c = true → (∀ x ∈ l, p x = true → x = c) →
      l.filter p = [c]
  | [], _, hc, _, _ => by simp at hc
  | x :: xs, hnd, hc, hp, huniq => by
    obtain ⟨hx, hxs⟩ := List.nodup_cons.mp hnd
    by_cases hxc : x = c
    · subst hxc
      have hnil : xs.filter p = [] := by
        rw [List.filter_eq_nil_iff]
        intro y hy hpy
        have := huniq y (by simp [hy]) hpy
        subst this
        exact hx hy
      simp [List.filter_cons, hp, hnil]
    · have hpx : ¬ p x = true := fun h => hxc (huniq x (by simp) h)
      have hc' : c ∈ xs := by
        rcases List.mem_cons.mp hc with h | h
        · exact absurd h.symm hxc
        · exact h
      simp only [List.filter_cons, hpx, if_false]
      exact filter_eq_singleton p c xs hxs hc' hp fun y hy => huniq y (by simp [hy])


theorem mem_viable {τ : Type} (conv : Conversions τ) (T : τ) (Ts : List τ)
    (f : overload_frag τ) :
    f ∈ viable conv T (make_overload Ts) ↔
      ∃ i : Fin Ts.length, f = ⟨i, Ts[i]⟩ ∧ conv.admits T Ts[i] = true ∧
        conv.converts T Ts[i] = true := by
  simp only [viable, List.mem_filter, mem_make_overload, Bool.and_eq_true]
  constructor
  · rintro ⟨hf, ha, hc⟩
    obtain ⟨hlt, hget⟩ := List.getElem?_eq_some.mp hf
    refine ⟨⟨f.N, hlt⟩, ?_, ?_, ?_⟩
    · cases f with
      | mk n a => simp only at hget; simp [hget]
    · show conv.admits T Ts[f.N] = true
      rw [hget]; exact ha
    · show conv.converts T Ts[f.N] = true
      rw [hget]; exact hc
  · rintro ⟨i, rfl, ha, hc⟩
    exact ⟨List.getElem?_eq_getElem i.isLt, ha, hc⟩

theorem nodup_viable {τ : Type} (conv : Conversions τ) (T : τ) (Ts : List τ) :
    (viable conv T (make_overload Ts)).Nodup :=
  (nodup_make_overload Ts).filter _

/-- C4 as stated fails: for an `int` and the alternatives `Agg` and `void*`,
exactly one alternative, the aggregate `Agg`, admits the array initialisation
(by brace elision), but an `int` does not convert to the by-value parameter
`Agg` of the call operator, so no call operator is viable and there is no best
overload match. -/
theorem best_overload_match_undefined_for_aggregate :
    test_conversions.admits TestTy.int [TestTy.agg, TestTy.void_ptr][(0 : Fin 2)] = true ∧
    (∀ j : Fin [TestTy.agg, TestTy.void_ptr].length,
      test_conversions.admits TestTy.int [TestTy.agg, TestTy.void_ptr][j] = true →
        j = (0 : Fin 2)) ∧
    test_conversions.converts TestTy.int TestTy.agg = false ∧
    best_overload_match test_conversions TestTy.int [TestTy.agg, TestTy.void_ptr] = none ∧
    has_non_ambiguous_match test_conversions TestTy.int [TestTy.agg, TestTy.void_ptr]
      = false := by
  decide

/-- C4 (amended): when exactly one position `i` of the pack holds an alternative
that admits the array initialisation from `T`, and `T` converts implicitly to
that alternative, the alias `best_overload_match<T, Ts...>` is well-formed and
is that alternative, and `has_non_ambiguous_match<T, Ts...>` is true. -/
theorem best_overload_match_unique {τ : Type} (conv : Conversions τ) (T : τ)
    (Ts : List τ) (i : Fin Ts.length) (hA : conv.admits T Ts[i] = true)
    (hC : conv.converts T Ts[i] = true)
    (huniq : ∀ j : Fin Ts.length, conv.admits T Ts[j] = true → j = i) :
    best_overload_match conv T Ts = some Ts[i] ∧
    has_non_ambiguous_match conv T Ts = true := by
  have hmem : (⟨i, Ts[i]⟩ : overload_frag τ) ∈ make_overload Ts := by
    rw [mem_make_overload]
    exact List.getElem?_eq_getElem i.isLt
  have hv : viable conv T (make_overload Ts) = [⟨i, Ts[i]⟩] := by
    refine filter_eq_singleton _ _ _ (nodup_make_overload Ts) hmem
      (show (conv.admits T Ts[i] && conv.converts T Ts[i]) = true by rw [hA, hC]; rfl) ?_
    intro f hf hfa
    have hfv : f ∈ viable conv T (make_overload Ts) := List.mem_filter.mpr ⟨hf, hfa⟩
    obtain ⟨j, rfl, ha, _⟩ := (mem_viable conv T Ts f).mp hfv
    rw [huniq j ha]
  have hb : best_overload_match conv T Ts = some Ts[i] := by
    simp [best_overload_match, resolve_call, hv]
  exact ⟨hb, by simp [has_non_ambiguous_match, hb]⟩

/-- Instance of the amended C4 from the test: `V(42l)` for
`swl::variant<long, void*, const int>` selects `long`. -/
theorem best_overload_match_unique_witness :
    test_conversions.admits TestTy.long
      [TestTy.long, TestTy.void_ptr, TestTy.const_int][(0 : Fin 3)] = true ∧
    test_conversions.converts TestTy.long
      [TestTy.long, TestTy.void_ptr, TestTy.const_int][(0 : Fin 3)] = true ∧
    (∀ j : Fin [TestTy.long, TestTy.void_ptr, TestTy.const_int].length,
      test_conversions.admits TestTy.long
        [TestTy.long, TestTy.void_ptr, TestTy.const_int][j] = true → j = (0 : Fin 3)) ∧
    best_overload_match test_conversions TestTy.long
        [TestTy.long, TestTy.void_ptr, TestTy.const_int]
      = some [TestTy.long, TestTy.void_ptr, TestTy.const_int][(0 : Fin 3)] ∧
    has_non_ambiguous_match test_conversions TestTy.long
        [TestTy.long, TestTy.void_ptr, TestTy.const_int] = true :=
  ⟨by decide, by decide, by decide,
    best_overload_match_unique test_conversions TestTy.long
      [TestTy.long, TestTy.void_ptr, TestTy.const_int] (0 : Fin 3) (by decide) (by decide)
      (by decide)⟩

/-- C5 as stated fails: for the variant `swl::variant<long, void*, const int>`
of the test and an argument of type `int`, two alternatives (`long` and
`const int`) admit the array initialisation, and yet `best_overload_match`
is well-formed: it is `const int`, position 2, as the test asserts for
`V(101)`. -/
theorem best_overload_match_defined_with_two_admitting :
    test_conversions.admits TestTy.int TestTy.long = true ∧
    test_conversions.admits TestTy.int TestTy.const_int = true ∧
    (viable test_conversions TestTy.int
      (make_overload [TestTy.long, TestTy.void_ptr, TestTy.const_int])).length = 2 ∧
    best_overload_match test_conversions TestTy.int
      [TestTy.long, TestTy.void_ptr, TestTy.const_int] = some TestTy.const_int ∧
    has_non_ambiguous_match test_conversions TestTy.int
      [TestTy.long, TestTy.void_ptr, TestTy.const_int] = true := by
  decide

/-- C5 (amended): call an alternative viable when it admits the array
initialisation from `T` and `T` converts implicitly to it.  When no alternative
is viable, or when every viable alternative has another viable alternative, at
another position, over which its conversion from `T` is not better (this needs
two or more viable alternatives), the alias `best_overload_match<T, Ts...>` is
ill-formed and `has_non_ambiguous_match<T, Ts...>` is false.  When a viable
alternative is a better conversion from `T` than every other viable
alternative, `best_overload_match<T, Ts...>` is that alternative. -/
theorem best_overload_match_rejects {τ : Type} (conv : Conversions τ) (T : τ)
    (Ts : List τ) :
    ((∀ i : Fin Ts.length, conv.admits T Ts[i] = true → conv.converts T Ts[i] = true →
        ∃ j : Fin Ts.length, j ≠ i ∧ conv.admits T Ts[j] = true ∧
          conv.converts T Ts[j] = true ∧ conv.better T Ts[i] Ts[j] = false) →
      best_overload_match conv T Ts = none ∧
      has_non_ambiguous_match conv T Ts = false) ∧
    (∀ i : Fin Ts.length, conv.admits T Ts[i] = true → conv.converts T Ts[i] = true →
      (∀ j : Fin Ts.length, j ≠ i → conv.admits T Ts[j] = true →
        conv.converts T Ts[j] = true → conv.better T Ts[i] Ts[j] = true) →
      best_overload_match conv T Ts = some Ts[i] ∧
      has_non_ambiguous_match conv T Ts = true) := by
  constructor
  · intro h
    have hnil : ((viable conv T (make_overload Ts)).filter fun f =>
        (viable conv T (make_overload Ts)).all fun g =>
          g.N == f.N || conv.better T f.type g.type) = [] := by
      rw [List.filter_eq_nil_iff]
      intro f hf hall
      obtain ⟨i, rfl, ha, hc⟩ := (mem_viable conv T Ts f).mp hf
      obtain ⟨j, hji, hja, hjc, hjb⟩ := h i ha hc
      have hg : (⟨j, Ts[j]⟩ : overload_frag τ) ∈ viable conv T (make_overload Ts) :=
        (mem_viable conv T Ts _).mpr ⟨j, rfl, hja, hjc⟩
      have hne : ¬ (j.val = i.val) := fun e => hji (Fin.ext e)
      have hbeq : (j.val == i.val) = false := by simpa using hne
      have hwin : ((j.val == i.val) || conv.better T Ts[i] Ts[j]) = true :=
        List.all_eq_true.mp hall _ hg
      rw [hbeq, hjb] at hwin
      exact absurd hwin (by decide)
    have hb : best_overload_match conv T Ts = none := by
      simp [best_overload_match, resolve_call, hnil]
    exact ⟨hb, by simp [has_non_ambiguous_match, hb]⟩
  · intro i ha hc hbest
    have hi : (⟨i, Ts[i]⟩ : overload_frag τ) ∈ viable conv T (make_overload Ts) :=
      (mem_viable conv T Ts _).mpr ⟨i, rfl, ha, hc⟩
    have hwins : ((viable conv T (make_overload Ts)).all fun g =>
        g.N == (⟨i, Ts[i]⟩ : overload_frag τ).N
          || conv.better T (⟨i, Ts[i]⟩ : overload_frag τ).type g.type) = true := by
      rw [List.all_eq_true]
      intro g hg
      obtain ⟨j, rfl, hja, hjc⟩ := (mem_viable conv T Ts g).mp hg
      by_cases hji : j = i
      · subst hji
        simp
      · show ((j.val == i.val) || conv.better T Ts[i] Ts[j]) = true
        rw [hbest j hji hja hjc, Bool.or_true]
    have hsel : ((viable conv T (make_overload Ts)).filter fun f =>
        (viable conv T (make_overload Ts)).all fun g =>
          g.N == f.N || conv.better T f.type g.type) = [⟨i, Ts[i]⟩] := by
      refine filter_eq_singleton _ _ _ (nodup_viable conv T Ts) hi hwins ?_
      intro f hf hfall
      obtain ⟨j, rfl, hja, hjc⟩ := (mem_viable conv T Ts f).mp hf
      by_cases hji : j = i
      · rw [hji]
      · exfalso
        have h1 := hbest j hji hja hjc
        have hne : ¬ (i.val = j.val) := fun e => hji (Fin.ext e.symm)
        have hbeq : (i.val == j.val) = false := by simpa using hne
        have h2 : ((i.val == j.val) || conv.better T Ts[j] Ts[i]) = true :=
          List.all_eq_true.mp hfall _ hi
        rw [hbeq, conv.better_asymm T _ _ h1] at h2
        exact absurd h2 (by decide)
    have hb : best_overload_match conv T Ts = some Ts[i] := by
      simp [best_overload_match, resolve_call, hsel]
    exact ⟨hb, by simp [has_non_ambiguous_match, hb]⟩

/-- Instance of the amended C5: an `int` for the alternatives `int` and
`const int`, which are both exact matches, is rejected; an `int` for the
alternatives `long`, `void*` and `const int` of the test selects `const int`. -/
theorem best_overload_match_rejects_witness :
    (∀ i : Fin [TestTy.int, TestTy.const_int].length,
      test_conversions.admits TestTy.int [TestTy.int, TestTy.const_int][i] = true →
      test_conversions.converts TestTy.int [TestTy.int, TestTy.const_int][i] = true →
      ∃ j : Fin [TestTy.int, TestTy.const_int].length, j ≠ i ∧
        test_conversions.admits TestTy.int [TestTy.int, TestTy.const_int][j] = true ∧
        test_conversions.converts TestTy.int [TestTy.int, TestTy.const_int][j] = true ∧
        test_conversions.better TestTy.int [TestTy.int, TestTy.const_int][i]
          [TestTy.int, TestTy.const_int][j] = false) ∧
    (best_overload_match test_conversions TestTy.int [TestTy.int, TestTy.const_int] = none ∧
      has_non_ambiguous_match test_conversions TestTy.int [TestTy.int, TestTy.const_int]
        = false) ∧
    (best_overload_match test_conversions TestTy.int
        [TestTy.long, TestTy.void_ptr, TestTy.const_int]
      = some [TestTy.long, TestTy.void_ptr, TestTy.const_int][(2 : Fin 3)] ∧
      has_non_ambiguous_match test_conversions TestTy.int
        [TestTy.long, TestTy.void_ptr, TestTy.const_int] = true) :=
  ⟨by decide,
    (best_overload_match_rejects test_conversions TestTy.int
      [TestTy.int, TestTy.const_int]).1 (by decide),
    (best_overload_match_rejects test_conversions TestTy.int
      [TestTy.long, TestTy.void_ptr, TestTy.const_int]).2 (2 : Fin 3) (by decide) (by decide)
      (by decide)⟩

/-! ## Positions out of range -/

theorem length_slots_terminal_le {α : Type} (a b : Ty α) :
    (slots (variant_union true a b)).length ≤ 2 := by
  cases b <;> simp [slots]

theorem length_slots_pair_up_true_le {α : Type} :
    ∀ ts : List (Ty α), ((pair_up true ts).flatMap slots).length ≤ ts.length
  | [] => by simp [pair_up]
  | [a] => by simp [pair_up, slots]
  | a :: b :: ts => by
    have h1 := length_slots_terminal_le a b
    have h2 := length_slots_pair_up_true_le ts
    simp only [pair_up, List.flatMap_cons, List.length_append, List.length_cons]
    omega

theorem length_slots_tree_of_le {α : Type} (ts : List (Ty α)) (hts : ts ≠ []) :
    (slots (tree_of ts)).length ≤ ts.length := by
  have h := (iterate_pair_up_false ts.length (pair_up true ts)).1
  rw [passes_eq_tree_of ts hts] at h
  have h2 := length_slots_pair_up_true_le ts
  rw [← h] at h2
  simpa using h2

theorem length_slots_pos {α : Type} (t : Ty α) (h : IsTree t) : 0 < (slots t).length := by
  induction h with
  | terminal a b => cases b <;> simp [slots]
  | node a b _ _ iha _ => simp only [slots, List.length_append]; omega

/-- From a position that is not below the size of a tree, `get` takes member
`b` at every node. -/
theorem get_beyond_size {α : Type} (t : Ty α) (h : IsTree t) :
    ∀ k, (slots t).length ≤ k →
      ∃ slot, get t k = some slot ∧ ∀ m ∈ slot.path, m = Member.b := by
  induction h with
  | terminal a b =>
    intro k hk
    have hpos := length_slots_pos _ (IsTree.terminal a b)
    have hk0 : k ≠ 0 := by omega
    exact ⟨⟨[Member.b], b⟩, by simp [get, hk0], by simp⟩
  | node a b ha _ _ ihb =>
    intro k hk
    simp only [slots, List.length_append] at hk
    have hlt : ¬ k < (slots a).length := by omega
    obtain ⟨slot, hs, hp⟩ := ihb (k - (slots a).length) (by omega)
    refine ⟨Slot.under Member.b slot, ?_, ?_⟩
    · simp [get, elem_size_of_isTree a ha, hlt, hs]
    · intro m hm
      simp only [Slot.under, List.mem_cons] at hm
      rcases hm with rfl | hm
      · rfl
      · exact hp m hm

/-- C11 as stated fails: for the pack `alt 0, alt 1` the root is one terminal
node, and `get<2>`, like `get<K>` for every `K` other than 0, is its member `b`,
the slot of the alternative at position 1; for the pack `alt 0` alone `get<1>`
is the `dummy_type` member. -/
theorem get_out_of_range_yields_slot :
    make_tree_union 6 [alt 0, (alt 1 : Ty Nat)]
      = Instantiation.type (variant_union true (alt 0) (alt 1)) ∧
    get (variant_union true (alt 0) (alt 1 : Ty Nat)) 2 = some ⟨[Member.b], alt 1⟩ ∧
    make_tree_union 4 [(alt 0 : Ty Nat)]
      = Instantiation.type (variant_union true (alt 0) dummy_type) ∧
    get (variant_union true (alt 0 : Ty Nat) dummy_type) 1
      = some ⟨[Member.b], dummy_type⟩ := by
  decide

/-- C11 (amended): for a non-empty pack of length `N` and a position `K >= N`,
the descent of `get<K>` from the root of `make_tree_union<Ts...>` is not
rejected by the union nodes: when `K` fits `union_index_t`, that is `K < 2 ^ 32`,
the call takes member `b` at every node and yields the member `b` of the last
terminal node; a `K` that does not fit `union_index_t` is ill-formed as the
template argument.  The position is rejected by `type_pack_element<K, Ts...>`,
which has no result. -/
theorem get_out_of_range_takes_last_member {α : Type} (Ts : List (Ty α)) (K : Nat)
    (hne : Ts ≠ []) (hK : Ts.length ≤ K) :
    ∃ root,
      (∀ depth, 2 * Ts.length + 2 ≤ depth →
        make_tree_union depth Ts = Instantiation.type root) ∧
      (K < 2 ^ 32 →
        ∃ slot, get_call root K = some slot ∧ get root K = some slot ∧
          ∀ m ∈ slot.path, m = Member.b) ∧
      (2 ^ 32 ≤ K → get_call root K = none) ∧
      type_pack_element K Ts = none := by
  obtain ⟨slot, hg, hp⟩ := get_beyond_size (tree_of Ts) (isTree_tree_of Ts hne) K
    (Nat.le_trans (length_slots_tree_of_le Ts hne) hK)
  refine ⟨tree_of Ts, fun depth h => make_tree_union_eq Ts hne depth h, ?_, ?_, ?_⟩
  · intro h32
    refine ⟨slot, ?_, hg, hp⟩
    show (if K < 2 ^ 32 then some K else none).bind (get (tree_of Ts)) = some slot
    rw [if_pos h32]
    exact hg
  · intro h32
    show (if K < 2 ^ 32 then some K else none).bind (get (tree_of Ts)) = none
    rw [if_neg (Nat.not_lt.mpr h32)]
    rfl
  · rw [type_pack_element_eq_getElem?]
    exact List.getElem?_eq_none hK

/-- Instance of the amended C11: three alternatives and the position 3. -/
theorem get_out_of_range_takes_last_member_witness :
    [alt 0, alt 1, (alt 2 : Ty Nat)] ≠ [] ∧
    [alt 0, alt 1, (alt 2 : Ty Nat)].length ≤ 3 ∧
    ∃ root,
      (∀ depth, 2 * [alt 0, alt 1, (alt 2 : Ty Nat)].length + 2 ≤ depth →
        make_tree_union depth [alt 0, alt 1, alt 2] = Instantiation.type root) ∧
      (3 < 2 ^ 32 →
        ∃ slot, get_call root 3 = some slot ∧ get root 3 = some slot ∧
          ∀ m ∈ slot.path, m = Member.b) ∧
      (2 ^ 32 ≤ 3 → get_call root 3 = none) ∧
      type_pack_element 3 [alt 0, alt 1, (alt 2 : Ty Nat)] = none :=
  ⟨by decide, by decide,
    get_out_of_range_takes_last_member [alt 0, alt 1, alt 2] 3 (by decide) (by decide)⟩

/-! ## Termination of the builder -/

theorem getLast?_cons_of_some {β : Type} (y : β) (l : List β) (x : β)
    (h : l.getLast? = some x) : (y :: l).getLast? = some x := by
  cases l with
  | nil => simp at h
  | cons z zs => simpa [List.getLast?_cons_cons] using h

/-- When `make_tree` names a type within a depth, every instantiation it made
is a defined specialisation, the last one is the stop case on a single type,
there are at most as many as the depth, and a greater depth changes neither the
type nor the instantiations. -/
theorem make_tree_trace_of_type {α : Type} (t : Ty α) :
    ∀ (depth pick : Nat) (goOn fp : Bool) (r : Nat) (ts : List (Ty α)),
      make_tree depth pick goOn fp r ts = Instantiation.type t →
        (∀ s ∈ make_tree_trace depth pick goOn fp r ts, s.is_defined = true) ∧
        (∃ F, (make_tree_trace depth pick goOn fp r ts).getLast? = some ⟨0, false, F, 1⟩) ∧
        (make_tree_trace depth pick goOn fp r ts).length ≤ depth ∧
        ∀ d, depth ≤ d →
          make_tree d pick goOn fp r ts = Instantiation.type t ∧
          make_tree_trace d pick goOn fp r ts = make_tree_trace depth pick goOn fp r ts := by
  intro depth pick goOn fp r ts
  induction depth, pick, goOn, fp, r, ts using make_tree.induct with
  | case1 => intro h; simp [make_tree] at h
  | case2 depth fp r a b ts ih =>
    intro h
    simp only [make_tree] at h
    obtain ⟨h1, ⟨F, h2⟩, h3, h4⟩ := ih h
    refine ⟨?_, ⟨F, ?_⟩, ?_, ?_⟩
    · intro s hs
      simp only [make_tree_trace, List.mem_cons] at hs
      rcases hs with rfl | hs
      · simp [Step.is_defined]
      · exact h1 s hs
    · simp only [make_tree_trace]
      exact getLast?_cons_of_some _ _ _ h2
    · simp only [make_tree_trace, List.length_cons]; omega
    · intro d hd
      obtain ⟨e, rfl⟩ : ∃ e, d = e + 1 := ⟨d - 1, by omega⟩
      obtain ⟨h5, h6⟩ := h4 e (by omega)
      simp only [make_tree, make_tree_trace, h5, h6, and_self]
  | case3 n fp r a =>
    intro h
    refine ⟨?_, ⟨fp, ?_⟩, ?_, ?_⟩
    · intro s hs
      simp only [make_tree_trace, List.mem_singleton] at hs
      subst hs
      simp [Step.is_defined]
    · simp [make_tree_trace]
    · simp [make_tree_trace]
    · intro d hd
      obtain ⟨e, rfl⟩ : ∃ e, d = e + 1 := ⟨d - 1, by omega⟩
      simp only [make_tree] at h
      simp [make_tree, make_tree_trace, h]
  | case4 depth fp r ts ih =>
    intro h
    simp only [make_tree] at h
    obtain ⟨h1, ⟨F, h2⟩, h3, h4⟩ := ih h
    refine ⟨?_, ⟨F, ?_⟩, ?_, ?_⟩
    · intro s hs
      simp only [make_tree_trace, List.mem_cons] at hs
      rcases hs with rfl | hs
      · simp [Step.is_defined]
      · exact h1 s hs
    · simp only [make_tree_trace]
      exact getLast?_cons_of_some _ _ _ h2
    · simp only [make_tree_trace, List.length_cons]; omega
    · intro d hd
      obtain ⟨e, rfl⟩ : ∃ e, d = e + 1 := ⟨d - 1, by omega⟩
      obtain ⟨h5, h6⟩ := h4 e (by omega)
      simp only [make_tree, make_tree_trace, h5, h6, and_self]
  | case5 depth r a ts ih =>
    intro h
    simp only [make_tree] at h
    obtain ⟨h1, ⟨F, h2⟩, h3, h4⟩ := ih h
    refine ⟨?_, ⟨F, ?_⟩, ?_, ?_⟩
    · intro s hs
      simp only [make_tree_trace, List.mem_cons] at hs
      rcases hs with rfl | hs
      · simp [Step.is_defined]
      · exact h1 s hs
    · simp only [make_tree_trace]
      exact getLast?_cons_of_some _ _ _ h2
    · simp only [make_tree_trace, List.length_cons]; omega
    · intro d hd
      obtain ⟨e, rfl⟩ : ∃ e, d = e + 1 := ⟨d - 1, by omega⟩
      obtain ⟨h5, h6⟩ := h4 e (by omega)
      simp only [make_tree, make_tree_trace, h5, h6, and_self]
  | case6 depth r a ts ih =>
    intro h
    simp only [make_tree] at h
    obtain ⟨h1, ⟨F, h2⟩, h3, h4⟩ := ih h
    refine ⟨?_, ⟨F, ?_⟩, ?_, ?_⟩
    · intro s hs
      simp only [make_tree_trace, List.mem_cons] at hs
      rcases hs with rfl | hs
      · simp [Step.is_defined]
      · exact h1 s hs
    · simp only [make_tree_trace]
      exact getLast?_cons_of_some _ _ _ h2
    · simp only [make_tree_trace, List.length_cons]; omega
    · intro d hd
      obtain ⟨e, rfl⟩ : ∃ e, d = e + 1 := ⟨d - 1, by omega⟩
      obtain ⟨h5, h6⟩ := h4 e (by omega)
      simp only [make_tree, make_tree_trace, h5, h6, and_self]
  | case7 n pick goOn fp r ts c1 c2 c3 c4 c5 =>
    intro h
    rw [make_tree.eq_7 pick goOn fp r ts n c3 c1 c2 c4 c5] at h
    exact absurd h (by simp)

/-- C12: for a non-empty pack of length `N` the recursion of `make_tree` started
by `make_tree_union` ends: within every depth from `2 * N + 2` on it names the
same single root type by the same list of instantiations, which has at most
`2 * N + 2` entries; every instantiation is one of the five defined
specialisations applied to a pack it accepts (so never `<2, 0, _>` or
`<1, 0, _>`, and the stop case only with one type), and the last one is the stop
case `make_tree<0, 0, F>` on exactly one type. -/
theorem make_tree_union_terminates {α : Type} (Ts : List (Ty α)) (hne : Ts ≠ []) :
    ∃ root steps,
      (∀ depth, 2 * Ts.length + 2 ≤ depth →
        make_tree_union depth Ts = Instantiation.type root ∧
        make_tree_union_trace depth Ts = steps) ∧
      steps.length ≤ 2 * Ts.length + 2 ∧
      (∀ s ∈ steps, s.is_defined = true) ∧
      ∃ F, steps.getLast? = some ⟨0, false, F, 1⟩ := by
  have h := make_tree_union_eq Ts hne (2 * Ts.length + 2) (Nat.le_refl _)
  obtain ⟨h1, h2, h3, h4⟩ := make_tree_trace_of_type (tree_of Ts) _ _ _ _ _ _ h
  exact ⟨tree_of Ts, make_tree_union_trace (2 * Ts.length + 2) Ts,
    fun depth hd => h4 depth hd, h3, h1, h2⟩

/-- Instance of C12 for a pack of five alternatives. -/
theorem make_tree_union_terminates_witness :
    [alt 0, alt 1, alt 2, alt 3, (alt 4 : Ty Nat)] ≠ [] ∧
    ∃ root steps,
      (∀ depth, 2 * [alt 0, alt 1, alt 2, alt 3, (alt 4 : Ty Nat)].length + 2 ≤ depth →
        make_tree_union depth [alt 0, alt 1, alt 2, alt 3, alt 4]
          = Instantiation.type root ∧
        make_tree_union_trace depth [alt 0, alt 1, alt 2, alt 3, (alt 4 : Ty Nat)]
          = steps) ∧
      steps.length ≤ 2 * [alt 0, alt 1, alt 2, alt 3, (alt 4 : Ty Nat)].length + 2 ∧
      (∀ s ∈ steps, s.is_defined = true) ∧
      ∃ F, steps.getLast? = some ⟨0, false, F, 1⟩ :=
  ⟨by decide, make_tree_union_terminates [alt 0, alt 1, alt 2, alt 3, alt 4] (by decide)⟩

/-! ## Depth of the tree -/

/-- On a union tree `get` names a slot for every index, and visits at least one
and at most `height` many nodes. -/
theorem get_path_length {α : Type} (t : Ty α) (h : IsTree t) :
    ∀ k, ∃ slot, get t k = some slot ∧ 1 ≤ slot.path.length ∧
      slot.path.length ≤ height t := by
  induction h with
  | terminal a b =>
    intro k
    by_cases hk : k = 0
    · exact ⟨⟨[Member.a], a⟩, by simp [get, hk], by simp, by simp [height]⟩
    · exact ⟨⟨[Member.b], b⟩, by simp [get, hk], by simp, by simp [height]⟩
  | node a b ha _ iha ihb =>
    intro k
    by_cases hlt : k < (slots a).length
    · obtain ⟨slot, hs, h1, h2⟩ := iha k
      refine ⟨Slot.under Member.a slot, by simp [get, elem_size_of_isTree a ha, hlt, hs],
        by simp [Slot.under], ?_⟩
      simp only [Slot.under, List.length_cons, height]
      omega
    · obtain ⟨slot, hs, h1, h2⟩ := ihb (k - (slots a).length)
      refine ⟨Slot.under Member.b slot, by simp [get, elem_size_of_isTree a ha, hlt, hs],
        by simp [Slot.under], ?_⟩
      simp only [Slot.under, List.length_cons, height]
      omega

theorem height_pair_up_true {α : Type} :
    ∀ ts : List (Ty α), ∀ u ∈ pair_up true ts, height u ≤ 1
  | [] => by simp [pair_up]
  | [a] => by simp [pair_up, height]
  | a :: b :: ts => by
    intro u hu
    simp only [pair_up, List.mem_cons] at hu
    rcases hu with rfl | hu
    · simp [height]
    · exact height_pair_up_true ts u hu

theorem height_pair_up_false {α : Type} (n : Nat) :
    ∀ ts : List (Ty α), (∀ u ∈ ts, height u ≤ n) → ∀ u ∈ pair_up false ts, height u ≤ n + 1
  | [], _ => by simp [pair_up]
  | [a], h => by
    intro u hu
    simp only [pair_up, List.mem_singleton] at hu
    subst hu
    exact Nat.le_succ_of_le (h _ (by simp))
  | a :: b :: ts, h => by
    intro u hu
    simp only [pair_up, List.mem_cons] at hu
    rcases hu with rfl | hu
    · have ha := h a (by simp)
      have hb := h b (by simp)
      simp only [height]
      omega
    · exact height_pair_up_false n ts (fun v hv => h v (by simp [hv])) u hu

theorem height_iterate_pair_up {α : Type} (n : Nat) :
    ∀ (j : Nat) (ts : List (Ty α)), (∀ u ∈ ts, height u ≤ n) →
      ∀ u ∈ (pair_up false)^[j] ts, height u ≤ n + j := by
  intro j
  induction j generalizing n with
  | zero => intro ts h; simpa using h
  | succ j ih =>
    intro ts h u hu
    rw [Function.iterate_succ_apply] at hu
    have := ih (n + 1) (pair_up false ts) (height_pair_up_false n ts h) u hu
    omega

theorem length_iterate_pair_up {α : Type} :
    ∀ (j : Nat) (ts : List (Ty α)), ts ≠ [] → ts.length ≤ 2 ^ j →
      ((pair_up false)^[j] ts).length = 1 := by
  intro j
  induction j with
  | zero =>
    intro ts hne hlen
    cases ts with
    | nil => exact absurd rfl hne
    | cons x xs => simp at hlen ⊢; exact hlen
  | succ j ih =>
    intro ts hne hlen
    rw [Function.iterate_succ_apply]
    refine ih (pair_up false ts) (pair_up_ne_nil false ts hne) ?_
    rw [length_pair_up]
    rw [Nat.pow_succ] at hlen
    omega

/-- The root is reached after `j` later passes as soon as `2 ^ j` is at least the
number of terminal nodes, so its height is at most `j + 1`. -/
theorem height_tree_of_le {α : Type} (ts : List (Ty α)) (hts : ts ≠ []) (j : Nat)
    (hj : (ts.length + 1) / 2 ≤ 2 ^ j) (hjn : j ≤ ts.length) :
    height (tree_of ts) ≤ j + 1 := by
  have hlen := length_iterate_pair_up j (pair_up true ts) (pair_up_ne_nil true ts hts)
    (by rw [length_pair_up]; exact hj)
  obtain ⟨r, hr⟩ := List.length_eq_one.mp hlen
  have hroot : [tree_of ts] = [r] := by
    rw [← passes_eq_tree_of ts hts]
    obtain ⟨e, he⟩ : ∃ e, ts.length = e + j := ⟨ts.length - j, by omega⟩
    rw [he, Function.iterate_add_apply, hr, iterate_pair_up_singleton]
  have hr' : tree_of ts = r := by simpa using hroot
  have := height_iterate_pair_up 1 j (pair_up true ts) (height_pair_up_true ts) r
    (by rw [hr]; simp)
  rw [hr']
  omega

/-- C13: for a pack of length `N` and a position `K < N`, `get<K>` names a slot
of the root of `make_tree_union<Ts...>` after visiting at least one union node;
for `N >= 2` the number of nodes visited is at most the ceiling of `log2 N`, so
`2 ^ (steps - 1) < N`, and for `N = 1` it is exactly 1.  Without `dummy_type`
in the pack the slot is that of the `K`-th alternative. -/
theorem get_visits_at_most_clog_nodes {α : Type} (Ts : List (Ty α)) (K : Nat)
    (hK : K < Ts.length) :
    ∃ root slot,
      (∀ depth, 2 * Ts.length + 2 ≤ depth →
        make_tree_union depth Ts = Instantiation.type root) ∧
      get root K = some slot ∧
      1 ≤ slot.path.length ∧
      (2 ≤ Ts.length →
        slot.path.length ≤ Nat.clog 2 Ts.length ∧ 2 ^ (slot.path.length - 1) < Ts.length) ∧
      (Ts.length = 1 → slot.path.length = 1) ∧
      (dummy_type ∉ Ts → Ts[K]? = some slot.type) := by
  have hne : Ts ≠ [] := by
    intro h; subst h; simp at hK
  obtain ⟨slot, hg, h1, h2⟩ := get_path_length (tree_of Ts) (isTree_tree_of Ts hne) K
  refine ⟨tree_of Ts, slot, fun depth h => make_tree_union_eq Ts hne depth h, hg, h1,
    ?_, ?_, ?_⟩
  · intro hN
    have hne1 : Ts.length - 1 ≠ 0 := by omega
    have hlo : 2 ^ Nat.log 2 (Ts.length - 1) ≤ Ts.length - 1 := Nat.pow_log_le_self 2 hne1
    have hhi : Ts.length - 1 < 2 ^ (Nat.log 2 (Ts.length - 1)).succ :=
      Nat.lt_pow_succ_log_self (by decide) _
    have hjn : Nat.log 2 (Ts.length - 1) ≤ Ts.length :=
      Nat.le_trans (Nat.log_le_self 2 _) (Nat.sub_le _ _)
    have hh := height_tree_of_le Ts hne (Nat.log 2 (Ts.length - 1))
      (by rw [Nat.pow_succ] at hhi; omega) hjn
    have hpow : 2 ^ (slot.path.length - 1) ≤ 2 ^ Nat.log 2 (Ts.length - 1) :=
      Nat.pow_le_pow_right (by decide) (by omega)
    have hlt : 2 ^ (slot.path.length - 1) < Ts.length := by omega
    refine ⟨?_, hlt⟩
    have := (Nat.pow_lt_iff_lt_clog (by decide : 1 < 2)).mp hlt
    omega
  · intro hN
    have hh := height_tree_of_le Ts hne 0 (by rw [hN]; decide) (Nat.zero_le _)
    omega
  · intro hd
    obtain ⟨slot', hg', ht'⟩ := get_of_isTree (tree_of Ts) (isTree_tree_of Ts hne) K
      (by rw [slots_tree_of Ts hne hd]; exact hK)
    rw [hg] at hg'
    cases hg'
    rw [slots_tree_of Ts hne hd] at ht'
    exact ht'

/-- Instance of C13: five alternatives, position 0, three nodes visited. -/
theorem get_visits_at_most_clog_nodes_witness :
    0 < [alt 0, alt 1, alt 2, alt 3, (alt 4 : Ty Nat)].length ∧
    ∃ root slot,
      (∀ depth, 2 * [alt 0, alt 1, alt 2, alt 3, (alt 4 : Ty Nat)].length + 2 ≤ depth →
        make_tree_union depth [alt 0, alt 1, alt 2, alt 3, alt 4]
          = Instantiation.type root) ∧
      get root 0 = some slot ∧
      1 ≤ slot.path.length ∧
      (2 ≤ [alt 0, alt 1, alt 2, alt 3, (alt 4 : Ty Nat)].length →
        slot.path.length ≤ Nat.clog 2 [alt 0, alt 1, alt 2, alt 3, (alt 4 : Ty Nat)].length ∧
        2 ^ (slot.path.length - 1) < [alt 0, alt 1, alt 2, alt 3, (alt 4 : Ty Nat)].length) ∧
      ([alt 0, alt 1, alt 2, alt 3, (alt 4 : Ty Nat)].length = 1 → slot.path.length = 1) ∧
      (dummy_type ∉ [alt 0, alt 1, alt 2, alt 3, (alt 4 : Ty Nat)] →
        [alt 0, alt 1, alt 2, alt 3, (alt 4 : Ty Nat)][0]? = some slot.type) :=
  ⟨by decide,
    get_visits_at_most_clog_nodes [alt 0, alt 1, alt 2, alt 3, alt 4] 0 (by decide)⟩

/-! ## Shape of the leaves -/

theorem terminals_pair_up_false {α : Type} :
    ∀ ts : List (Ty α), (pair_up false ts).flatMap terminals = ts.flatMap terminals
  | [] => rfl
  | [a] => by simp [pair_up]
  | a :: b :: ts => by
    simp [pair_up, terminals, terminals_pair_up_false ts]

theorem terminals_pair_up_true {α : Type} :
    ∀ ts : List (Ty α), (pair_up true ts).flatMap terminals = pair_up true ts
  | [] => rfl
  | [a] => by simp [pair_up, terminals]
  | a :: b :: ts => by
    simp [pair_up, terminals, terminals_pair_up_true ts]

theorem terminals_tree_of {α : Type} (ts : List (Ty α)) (hts : ts ≠ []) :
    terminals (tree_of ts) = pair_up true ts := by
  have hiter : ∀ (n : Nat) (us : List (Ty α)),
      ((pair_up false)^[n] us).flatMap terminals = us.flatMap terminals := by
    intro n
    induction n with
    | zero => intro us; rfl
    | succ n ih =>
      intro us
      rw [Function.iterate_succ_apply, ih, terminals_pair_up_false]
  have h := hiter ts.length (pair_up true ts)
  rw [passes_eq_tree_of ts hts, terminals_pair_up_true] at h
  simpa using h

/-- The terminal nodes made by the first pass: each holds two types of the pack,
or a type of the pack and `dummy_type`; when the pack has an odd number of types
the last node holds the last type and `dummy_type`; and without `dummy_type` in
the pack a node with `dummy_type` at the back exists only for an odd number. -/
theorem pair_up_true_spec {α : Type} :
    ∀ ts : List (Ty α),
      (∀ t ∈ pair_up true ts, ∃ a b, t = variant_union true a b ∧ a ∈ ts ∧
        (b ∈ ts ∨ b = dummy_type)) ∧
      (ts.length % 2 = 1 → ∀ x, ts.getLast? = some x →
        (pair_up true ts).getLast? = some (variant_union true x dummy_type)) ∧
      (dummy_type ∉ ts →
        ((∃ a, variant_union true a dummy_type ∈ pair_up true ts) ↔ ts.length % 2 = 1))
  | [] => by simp [pair_up]
  | [a] => by
    refine ⟨?_, ?_, ?_⟩
    · intro t ht
      simp only [pair_up, if_true, List.mem_singleton] at ht
      exact ⟨a, dummy_type, ht, by simp, Or.inr rfl⟩
    · intro _ x hx
      simp only [List.getLast?_singleton, Option.some.injEq] at hx
      subst hx
      simp [pair_up]
    · intro _
      simp [pair_up]
  | a :: b :: ts => by
    obtain ⟨ih1, ih2, ih3⟩ := pair_up_true_spec ts
    refine ⟨?_, ?_, ?_⟩
    · intro t ht
      simp only [pair_up, List.mem_cons] at ht
      rcases ht with rfl | ht
      · exact ⟨a, b, rfl, by simp, Or.inl (by simp)⟩
      · obtain ⟨x, y, hxy, hx, hy⟩ := ih1 t ht
        refine ⟨x, y, hxy, by simp [hx], ?_⟩
        rcases hy with hy | hy
        · exact Or.inl (by simp [hy])
        · exact Or.inr hy
    · intro hodd x hx
      have hodd' : ts.length % 2 = 1 := by
        simp only [List.length_cons] at hodd
        omega
      cases ts with
      | nil => simp at hodd'
      | cons c cs =>
        have hx' : (c :: cs).getLast? = some x := by
          simpa [List.getLast?_cons_cons] using hx
        have := ih2 hodd' x hx'
        cases hp : pair_up true (c :: cs) with
        | nil => rw [hp] at this; simp at this
        | cons p ps =>
          rw [hp] at this
          simp only [pair_up, hp, List.getLast?_cons_cons]
          exact this
    · intro hd
      have hb : b ≠ dummy_type := fun hb => hd (by simp [hb])
      have hts : dummy_type ∉ ts := fun hm => hd (by simp [hm])
      have := ih3 hts
      simp only [pair_up, List.mem_cons, List.length_cons]
      constructor
      · rintro ⟨x, hx | hx⟩
        · simp only [variant_union.injEq, true_and] at hx
          exact absurd hx.2.symm hb
        · have := this.mp ⟨x, hx⟩
          omega
      · intro hodd
        obtain ⟨x, hx⟩ := this.mpr (by omega)
        exact ⟨x, Or.inr hx⟩

/-- C16 as stated fails: for the pack `alt 0, dummy_type` of even length 2 the
root is the terminal node `variant_union<true, alt 0, dummy_type>`, a terminal
node with `dummy_type` at the back. -/
theorem padded_terminal_for_even_pack :
    [alt 0, (dummy_type : Ty Nat)].length % 2 = 0 ∧
    make_tree_union 6 [alt 0, (dummy_type : Ty Nat)]
      = Instantiation.type (variant_union true (alt 0) dummy_type) ∧
    terminals (variant_union true (alt 0) (dummy_type : Ty Nat))
      = [variant_union true (alt 0) dummy_type] := by
  decide

/-- C16 (amended): for a non-empty pack `Ts` of length `N` in which no type is
`dummy_type`, the root of `make_tree_union<Ts...>` is a union tree (every
non-terminal node has two union nodes as members, which end in terminal nodes);
its terminal nodes, from left to right, are the pairs made by the first pass,
so each holds two alternatives or one alternative and `dummy_type`, and there are
`(N + 1) / 2` of them; a terminal node with `dummy_type` at the back exists
exactly when `N` is odd, and it is then the last terminal node and holds the
last alternative. -/
theorem uniform_leaf_shape {α : Type} (Ts : List (Ty α)) (hne : Ts ≠ [])
    (hd : dummy_type ∉ Ts) :
    ∃ root,
      (∀ depth, 2 * Ts.length + 2 ≤ depth →
        make_tree_union depth Ts = Instantiation.type root) ∧
      IsTree root ∧
      terminals root = pair_up true Ts ∧
      (∀ t ∈ terminals root, ∃ a b, t = variant_union true a b ∧ a ∈ Ts ∧
        (b ∈ Ts ∨ b = dummy_type)) ∧
      (terminals root).length = (Ts.length + 1) / 2 ∧
      ((∃ a, variant_union true a dummy_type ∈ terminals root) ↔ Ts.length % 2 = 1) ∧
      (Ts.length % 2 = 1 → ∀ x, Ts.getLast? = some x →
        (terminals root).getLast? = some (variant_union true x dummy_type)) := by
  obtain ⟨h1, h2, h3⟩ := pair_up_true_spec Ts
  have ht := terminals_tree_of Ts hne
  refine ⟨tree_of Ts, fun depth h => make_tree_union_eq Ts hne depth h,
    isTree_tree_of Ts hne, ht, ?_, ?_, ?_, ?_⟩
  · rw [ht]; exact h1
  · rw [ht, length_pair_up]
  · rw [ht]; exact h3 hd
  · rw [ht]; exact h2

/-- Instance of the amended C16 for a pack of five alternatives. -/
theorem uniform_leaf_shape_witness :
    [alt 0, alt 1, alt 2, alt 3, (alt 4 : Ty Nat)] ≠ [] ∧
    dummy_type ∉ [alt 0, alt 1, alt 2, alt 3, (alt 4 : Ty Nat)] ∧
    ∃ root,
      (∀ depth, 2 * [alt 0, alt 1, alt 2, alt 3, (alt 4 : Ty Nat)].length + 2 ≤ depth →
        make_tree_union depth [alt 0, alt 1, alt 2, alt 3, alt 4]
          = Instantiation.type root) ∧
      IsTree root ∧
      terminals root = pair_up true [alt 0, alt 1, alt 2, alt 3, alt 4] ∧
      (∀ t ∈ terminals root, ∃ a b, t = variant_union true a b ∧
        a ∈ [alt 0, alt 1, alt 2, alt 3, (alt 4 : Ty Nat)] ∧
        (b ∈ [alt 0, alt 1, alt 2, alt 3, (alt 4 : Ty Nat)] ∨ b = dummy_type)) ∧
      (terminals root).length
        = ([alt 0, alt 1, alt 2, alt 3, (alt 4 : Ty Nat)].length + 1) / 2 ∧
      ((∃ a, variant_union true a dummy_type ∈ terminals root) ↔
        [alt 0, alt 1, alt 2, alt 3, (alt 4 : Ty Nat)].length % 2 = 1) ∧
      ([alt 0, alt 1, alt 2, alt 3, (alt 4 : Ty Nat)].length % 2 = 1 → ∀ x,
        [alt 0, alt 1, alt 2, alt 3, (alt 4 : Ty Nat)].getLast? = some x →
        (terminals root).getLast? = some (variant_union true x dummy_type)) :=
  ⟨by decide, by decide,
    uniform_leaf_shape [alt 0, alt 1, alt 2, alt 3, alt 4] (by decide) (by decide)⟩

/-! ## Size bookkeeping -/

theorem union_nodes_spec {α : Type} (t : Ty α) (h : IsTree t) :
    ∀ n ∈ union_nodes t, IsTree n ∧ slots n <:+: slots t := by
  induction h with
  | terminal a b =>
    intro n hn
    simp only [union_nodes, List.mem_singleton] at hn
    subst hn
    exact ⟨IsTree.terminal a b, List.infix_refl _⟩
  | node a b ha hb iha ihb =>
    intro n hn
    simp only [union_nodes, List.mem_cons, List.mem_append] at hn
    rcases hn with rfl | hn | hn
    · exact ⟨IsTree.node a b ha hb, List.infix_refl _⟩
    · obtain ⟨h1, h2⟩ := iha n hn
      exact ⟨h1, h2.trans (by simp only [slots]; exact (List.prefix_append _ _).isInfix)⟩
    · obtain ⟨h1, h2⟩ := ihb n hn
      exact ⟨h1, h2.trans (by simp only [slots]; exact (List.suffix_append _ _).isInfix)⟩

theorem mem_union_nodes_self {α : Type} (t : Ty α) (h : IsTree t) : t ∈ union_nodes t := by
  cases h <;> simp [union_nodes]

/-- C18: for a non-empty pack `Ts` of length `N` in which no type is
`dummy_type`, `elem_size` of the root of `make_tree_union<Ts...>` is `N`; every
union node of the tree has as `elem_size` the number of alternative slots below
it, which are consecutive alternatives of the pack; at a non-terminal node this
is the sum of the `elem_size` of its two members; and a terminal node reports 1
when its second member is `dummy_type` and 2 otherwise. -/
theorem elem_size_bookkeeping {α : Type} (Ts : List (Ty α)) (hne : Ts ≠ [])
    (hd : dummy_type ∉ Ts) :
    ∃ root,
      (∀ depth, 2 * Ts.length + 2 ≤ depth →
        make_tree_union depth Ts = Instantiation.type root) ∧
      root ∈ union_nodes root ∧
      elem_size root = some Ts.length ∧
      (∀ n ∈ union_nodes root,
        elem_size n = some (slots n).length ∧ slots n <:+: Ts) ∧
      (∀ a b, variant_union false a b ∈ union_nodes root →
        ∃ sa sb, elem_size a = some sa ∧ elem_size b = some sb ∧
          elem_size (variant_union false a b) = some (sa + sb) ∧
          sa = (slots a).length ∧ sb = (slots b).length) ∧
      (∀ a : Ty α, elem_size (variant_union true a dummy_type) = some 1) ∧
      (∀ a b : Ty α, b ≠ dummy_type → elem_size (variant_union true a b) = some 2) := by
  have htree := isTree_tree_of Ts hne
  have hslots := slots_tree_of Ts hne hd
  refine ⟨tree_of Ts, fun depth h => make_tree_union_eq Ts hne depth h,
    mem_union_nodes_self _ htree, ?_, ?_, ?_, ?_, ?_⟩
  · rw [elem_size_of_isTree _ htree, hslots]
  · intro n hn
    obtain ⟨h1, h2⟩ := union_nodes_spec _ htree n hn
    exact ⟨elem_size_of_isTree n h1, hslots ▸ h2⟩
  · intro a b hab
    obtain ⟨h1, _⟩ := union_nodes_spec _ htree _ hab
    cases h1 with
    | node _ _ ha hb =>
      exact ⟨_, _, elem_size_of_isTree a ha, elem_size_of_isTree b hb,
        by simp [elem_size, elem_size_of_isTree a ha, elem_size_of_isTree b hb], rfl, rfl⟩
  · intro a
    rfl
  · intro a b hb
    cases b with
    | dummy_type => exact absurd rfl hb
    | alt n => rfl
    | variant_union t x y => rfl

/-- Instance of C18 for a pack of five alternatives. -/
theorem elem_size_bookkeeping_witness :
    [alt 0, alt 1, alt 2, alt 3, (alt 4 : Ty Nat)] ≠ [] ∧
    dummy_type ∉ [alt 0, alt 1, alt 2, alt 3, (alt 4 : Ty Nat)] ∧
    ∃ root,
      (∀ depth, 2 * [alt 0, alt 1, alt 2, alt 3, (alt 4 : Ty Nat)].length + 2 ≤ depth →
        make_tree_union depth [alt 0, alt 1, alt 2, alt 3, alt 4]
          = Instantiation.type root) ∧
      root ∈ union_nodes root ∧
      elem_size root = some [alt 0, alt 1, alt 2, alt 3, (alt 4 : Ty Nat)].length ∧
      (∀ n ∈ union_nodes root,
        elem_size n = some (slots n).length ∧
        slots n <:+: [alt 0, alt 1, alt 2, alt 3, (alt 4 : Ty Nat)]) ∧
      (∀ a b, variant_union false a b ∈ union_nodes root →
        ∃ sa sb, elem_size a = some sa ∧ elem_size b = some sb ∧
          elem_size (variant_union false a b) = some (sa + sb) ∧
          sa = (slots a).length ∧ sb = (slots b).length) ∧
      (∀ a : Ty Nat, elem_size (variant_union true a dummy_type) = some 1) ∧
      (∀ a b : Ty Nat, b ≠ dummy_type → elem_size (variant_union true a b) = some 2) :=
  ⟨by decide, by decide,
    elem_size_bookkeeping [alt 0, alt 1, alt 2, alt 3, alt 4] (by decide) (by decide)⟩

/-! ## Small helpers of the header -/

/-- C17: `destruct<E>(obj)` adds exactly one call of the destructor of `E` on
`obj` to the calls made when `E` is not trivially destructible, and changes
nothing when `E` is trivially destructible. -/
theorem destruct_runs_destructor_once {α β : Type} [DecidableEq α] [DecidableEq β]
    (traits : α → SpecialMember → Support) (E : Ty α) (obj : β)
    (calls : List (Ty α × β)) :
    ((sfm traits SpecialMember.destructible E).is_trivially = false →
      destruct traits E obj calls = calls ++ [(E, obj)] ∧
      (destruct traits E obj calls).count (E, obj) = calls.count (E, obj) + 1 ∧
      (destruct traits E obj calls).length = calls.length + 1) ∧
    ((sfm traits SpecialMember.destructible E).is_trivially = true →
      destruct traits E obj calls = calls) := by
  constructor
  · intro h
    have hd : destruct traits E obj calls = calls ++ [(E, obj)] := by
      simp [destruct, h]
    refine ⟨hd, ?_, ?_⟩
    · rw [hd, List.count_append]
      simp
    · rw [hd]
      simp
  · intro h
    simp [destruct, h]

theorem find_first_true_loop_spec (arr : List Bool) :
    ∀ (left k : Nat), left + k = arr.length →
      (find_first_true_loop arr left k = -1 ∧ ∀ i, k ≤ i → arr[i]? ≠ some true) ∨
      (∃ m : Nat, find_first_true_loop arr left k = (m : Int) ∧ k ≤ m ∧ m < arr.length ∧
        arr[m]? = some true ∧ ∀ j, k ≤ j → j < m → arr[j]? = some false) := by
  intro left
  induction left with
  | zero =>
    intro k hk
    left
    refine ⟨rfl, fun i hi => ?_⟩
    rw [List.getElem?_eq_none (by omega)]
    simp
  | succ left ih =>
    intro k hk
    have hlt : k < arr.length := by omega
    by_cases hb : arr[k] = true
    · right
      refine ⟨k, ?_, Nat.le_refl _, hlt, ?_, ?_⟩
      · simp [find_first_true_loop, List.getD, List.getElem?_eq_getElem hlt, hb]
      · rw [List.getElem?_eq_getElem hlt, hb]
      · intro j h1 h2
        omega
    · have hf : arr[k] = false := by simpa using hb
      have hstep : find_first_true_loop arr (left + 1) k
          = find_first_true_loop arr left (k + 1) := by
        simp [find_first_true_loop, List.getD, List.getElem?_eq_getElem hlt, hf]
      rw [hstep]
      rcases ih (k + 1) (by omega) with ⟨h1, h2⟩ | ⟨m, h1, h2, h3, h4, h5⟩
      · left
        refine ⟨h1, fun i hi => ?_⟩
        by_cases hik : i = k
        · subst hik
          rw [List.getElem?_eq_getElem hlt, hf]
          simp
        · exact h2 i (by omega)
      · right
        refine ⟨m, h1, by omega, h3, h4, fun j hj1 hj2 => ?_⟩
        by_cases hjk : j = k
        · subst hjk
          rw [List.getElem?_eq_getElem hlt, hf]
        · exact h5 j (by omega) hj2

/-- C19: when some element of `arr` is true, `find_first_true(arr)` is the least
index `k` with `arr[k]` true, so `0 <= k < N` and every element before `k` is
false; and it is `-1` exactly when no element is true. -/
theorem find_first_true_is_least_index (arr : List Bool) :
    ((∃ i : Nat, arr[i]? = some true) →
      ∃ k : Nat, find_first_true arr = (k : Int) ∧ k < arr.length ∧
        arr[k]? = some true ∧ ∀ j : Nat, j < k → arr[j]? = some false) ∧
    (find_first_true arr = -1 ↔ ∀ i : Nat, arr[i]? ≠ some true) := by
  rcases find_first_true_loop_spec arr arr.length 0 rfl with
    ⟨h1, h2⟩ | ⟨m, h1, _, h3, h4, h5⟩
  · refine ⟨?_, ?_⟩
    · rintro ⟨i, hi⟩
      exact absurd hi (h2 i (Nat.zero_le _))
    · exact ⟨fun _ i => h2 i (Nat.zero_le _), fun _ => h1⟩
  · refine ⟨fun _ => ⟨m, h1, h3, h4, fun j hj => h5 j (Nat.zero_le _) hj⟩, ?_⟩
    constructor
    · intro hneg
      have : find_first_true arr = (m : Int) := h1
      omega
    · intro hall
      exact absurd h4 (hall m)

theorem sum_is_same_eq_count {τ : Type} [DecidableEq τ] (T : τ) :
    ∀ Ts : List τ, (Ts.map fun V => if T = V then 1 else 0).sum = Ts.count T
  | [] => rfl
  | U :: Ts => by
    have ih := sum_is_same_eq_count T Ts
    by_cases h : T = U
    · subst h
      simp [ih, Nat.add_comm]
    · have h' : ¬ U = T := fun e => h e.symm
      simp [ih, h, List.count_cons, h']

/-- C20: for a non-empty pack `Ts`, `appears_exactly_once<T, Ts...>` is true
exactly when the number of elements of `Ts` identical to `T` is 1; it is false
when `T` is absent and when `T` occurs two or more times. -/
theorem appears_exactly_once_iff_count_one {τ : Type} [DecidableEq τ] (T : τ)
    (Ts : List τ) (hne : Ts ≠ []) :
    appears_exactly_once T Ts = some (decide (Ts.count T = 1)) ∧
    (T ∉ Ts → appears_exactly_once T Ts = some false) ∧
    (2 ≤ Ts.count T → appears_exactly_once T Ts = some false) := by
  have h : appears_exactly_once T Ts = some (decide (Ts.count T = 1)) := by
    cases Ts with
    | nil => exact absurd rfl hne
    | cons U Us =>
      simp only [appears_exactly_once, sum_is_same_eq_count]
      by_cases hc : List.count T (U :: Us) = 1 <;> simp [hc]
  refine ⟨h, ?_, ?_⟩
  · intro hT
    rw [h, List.count_eq_zero_of_not_mem hT]
    rfl
  · intro hc
    rw [h]
    have : ¬ Ts.count T = 1 := by omega
    simp [this]

/-- Instance of C20: `T` once, absent and twice in a pack. -/
theorem appears_exactly_once_iff_count_one_witness :
    [1, 2, 3] ≠ ([] : List Nat) ∧
    appears_exactly_once 2 [1, 2, 3] = some true ∧
    (appears_exactly_once 2 [1, 2, 3] = some (decide ([1, 2, 3].count 2 = 1)) ∧
    (2 ∉ [1, 2, 3] → appears_exactly_once 2 [1, 2, 3] = some false) ∧
    (2 ≤ [1, 2, 3].count 2 → appears_exactly_once 2 [1, 2, 3] = some false)) :=
  ⟨by decide, by decide, appears_exactly_once_iff_count_one 2 [1, 2, 3] (by decide)⟩

/-! ## Copy construction and assignment of the container -/

/-- C14: copy construction from a state `s` yields a container in the same
state: from `Active(i)` holding `v` the copy is `Active(i)` holding `v`, from
`Valueless` it is `Valueless`; the source is unchanged.  This is the transition
for a copy constructor of the active alternative that does not throw; a throwing
one propagates the failure and no container comes to exist, which the
description of the transition keeps apart. -/
theorem copy_construct_preserves_state {β ε : Type} (alts : Alternatives β ε)
    (s : VariantState β)
    (hcopy : ∀ i v, s = VariantState.Active i v → alts.construct_throws i v = none) :
    copy_construct alts s = Except.ok (s, s) := by
  cases s with
  | Valueless => rfl
  | Active i v =>
    simp [copy_construct, emplace_no_dtor_from_elem, emplace_no_dtor, hcopy i v rfl]

/-- Instance of C14, the test `test_copy_ctor_basic`: a container
holding the `int` 42 at position 0. -/
theorem copy_construct_preserves_state_witness :
    (∀ i v, VariantState.Active 0 42 = VariantState.Active i v →
      make_empty_alternatives.construct_throws i v = none) ∧
    copy_construct make_empty_alternatives (VariantState.Active 0 42)
      = Except.ok (VariantState.Active 0 42, VariantState.Active 0 42) :=
  ⟨fun i v h => by cases h; rfl,
    copy_construct_preserves_state make_empty_alternatives (VariantState.Active 0 42)
      (fun i v h => by cases h; rfl)⟩

/-- C15: when the container is `Active(i)`, the source is `Active(j)` with
`i != j`, and constructing alternative `j` from the source throws, the
assignment propagates the failure to the caller and leaves the container
`Valueless`; the alternative `i` it held has been destroyed, once. -/
theorem failed_assignment_makes_valueless {β ε : Type} (alts : Alternatives β ε)
    (i j : Nat) (v w : β) (e : ε) (hij : i ≠ j) (hthrow : alts.construct_throws j w = some e) :
    (assign alts (VariantState.Active i v) (VariantState.Active j w)).self
      = VariantState.Valueless ∧
    (assign alts (VariantState.Active i v) (VariantState.Active j w)).failure = some e ∧
    (assign alts (VariantState.Active i v) (VariantState.Active j w)).destroyed
      = [(i, v)] := by
  have hstep : assign alts (VariantState.Active i v) (VariantState.Active j w)
      = destroy_then_construct alts (VariantState.Active i v) j w := by
    simp [assign, hij]
  have hdestroy : destroy_active (VariantState.Active i v) ([] : List (Nat × β))
      = (VariantState.Valueless, [(i, v)]) := rfl
  have hconstruct : emplace_no_dtor alts j w VariantState.Valueless = Except.error e := by
    simp [emplace_no_dtor, hthrow]
  rw [hstep]
  simp only [destroy_then_construct, hdestroy, hconstruct, and_self]

/-- Instance of C15, the test `makeEmpty`: a container holding the `int`
alternative is move-assigned a `MakeEmptyT`, whose move construction throws
`42`. -/
theorem failed_assignment_makes_valueless_witness :
    (0 : Nat) ≠ 1 ∧
    make_empty_alternatives.construct_throws 1 5 = some 42 ∧
    (assign make_empty_alternatives (VariantState.Active 0 3)
      (VariantState.Active 1 5)).self = VariantState.Valueless ∧
    (assign make_empty_alternatives (VariantState.Active 0 3)
      (VariantState.Active 1 5)).failure = some 42 ∧
    (assign make_empty_alternatives (VariantState.Active 0 3)
      (VariantState.Active 1 5)).destroyed = [(0, 3)] :=
  ⟨by decide, by decide,
    failed_assignment_makes_valueless make_empty_alternatives 0 1 3 5 42 (by decide)
      (by decide)⟩

end swl
